import Mathlib

/-!
# Verification of the pi-parallel-agents orchestrator

Shallow embedding of the multi-agent orchestrator (executor, DAG engine,
mode dispatcher, workspace) together with proofs about the properties its
specification states.

Modeling conventions:
* JavaScript strings are modeled as Lean `String` (a packed `List Char`);
  character-level operations work on `String.data`.  JS string indices are
  UTF-16 code units; for characters in the basic multilingual plane this
  coincides with the character count used here.
* `Buffer.byteLength(s, "utf-8")` is modeled by summing the UTF-8 size of
  each character.
* Child agent subprocesses are abstracted by an environment (an oracle)
  assigning a `TaskResult` to each `runAgent` call, in call order; the
  `AbortSignal` is modeled by the check count at which it becomes aborted.
* Unbounded `while` loops are given explicit fuel; theorems quantify over
  the fuel, so every loop-boundary state is covered.
-/

namespace PiParallel

/-! ## JS string primitives -/

/-- Whitespace recognized by `String.prototype.trim` (ASCII part). -/
def jsWs (c : Char) : Bool :=
  c = ' ' || c = '\t' || c = '\n' || c = '\r' || c = '\x0b' || c = '\x0c'

/-- `s.trim()` on the character list. -/
def trimL (l : List Char) : List Char :=
  ((l.dropWhile jsWs).reverse.dropWhile jsWs).reverse

/-- `s.trim()`. -/
def jsTrim (s : String) : String := ⟨trimL s.data⟩

/-- UTF-8 size in bytes of one character (what `Buffer.byteLength` adds). -/
def charBytes (c : Char) : Nat :=
  if c.toNat ≤ 0x7F then 1
  else if c.toNat ≤ 0x7FF then 2
  else if c.toNat ≤ 0xFFFF then 3
  else 4

/-- UTF-8 byte length of a character list. -/
def bytesL (l : List Char) : Nat := (l.map charBytes).sum

/-- UTF-8 byte length of a string (`Buffer.byteLength(s, "utf-8")`). -/
def jsByteLength (s : String) : Nat := bytesL s.data

/-- `s.split("\n")` on the character list. -/
def splitNlL (l : List Char) : List (List Char) := l.splitOn '\n'

/-- `parts.join("\n")` on character lists. -/
def joinNlL (parts : List (List Char)) : List Char := List.intercalate ['\n'] parts

/-- `s.toLowerCase()` (ASCII part) on the character list. -/
def toLowerL (l : List Char) : List Char := l.map Char.toLower

/-- `s.slice(-n)`: the last `n` characters (the whole list when shorter). -/
def takeRightL (n : Nat) (l : List Char) : List Char := l.drop (l.length - n)

/-- `hay.includes(needle)` on character lists. -/
def hasInfixL (hay needle : List Char) : Bool :=
  hay.tails.any (fun t => needle.isPrefixOf t)

/-- Core of `s.replace(/pat/g, rep)` for a literal pattern: left-to-right,
non-overlapping, the replacement is not rescanned.  (Replacement text is
inserted verbatim; `$`-escapes of JS replacements are not modeled.)
Structural recursion on fuel; `fuel = l.length` always suffices because each
step consumes at least one character when `pat` is nonempty. -/
def replaceAllGo (pat rep : List Char) : Nat → List Char → List Char
  | 0, l => l
  | _ + 1, [] => []
  | fuel + 1, c :: rest =>
    if pat ≠ [] ∧ pat.isPrefixOf (c :: rest) then
      rep ++ replaceAllGo pat rep fuel ((c :: rest).drop pat.length)
    else
      c :: replaceAllGo pat rep fuel rest

/-- `s.replace(/pat/g, rep)` for a literal pattern. -/
def jsReplaceAll (s pat rep : String) : String :=
  ⟨replaceAllGo pat.data rep.data s.data.length s.data⟩

/-! ## Constants (`types.ts`) -/

def MAX_CONCURRENCY : Nat := 8
def DEFAULT_CONCURRENCY : Nat := 4
def MAX_OUTPUT_BYTES : Nat := 50 * 1024
def MAX_OUTPUT_LINES : Nat := 2000

/-! ## Output truncation (`executor.ts`, `truncateOutput`) -/

/-- The byte-cap loop of `truncateOutput`:
`while (byteLength(result) > maxBytes && result.length > 0) result = result.slice(floor(result.length / 2))`.
Structural recursion on fuel; `fuel = l.length` suffices for `maxBytes ≥ 4`
because each iteration then shortens the list. -/
def halveWhile (maxBytes : Nat) : Nat → List Char → List Char
  | 0, l => l
  | fuel + 1, l =>
    if maxBytes < bytesL l ∧ 0 < l.length then
      halveWhile maxBytes fuel (l.drop (l.length / 2))
    else l

/-- The line cap of `truncateOutput`: `lines.splice(0, lines.length - maxLines)`
keeps the last `maxLines` lines. -/
def truncLines (maxLines : Nat) (lines : List (List Char)) : List (List Char) :=
  if maxLines < lines.length then lines.drop (lines.length - maxLines) else lines

/-- `truncateOutput` on the character list: line cap first (keep the last
`maxLines` lines), then the byte-cap halving loop; the flag records whether
either cap fired. -/
def truncCore (maxBytes maxLines : Nat) (l : List Char) : List Char × Bool :=
  let joined := joinNlL (truncLines maxLines (splitNlL l))
  if maxBytes < bytesL joined then
    (halveWhile maxBytes joined.length joined, true)
  else
    (joined, decide (maxLines < (splitNlL l).length))

/-- `truncateOutput(output)` with the default caps. -/
def truncateOutput (output : String) : String × Bool :=
  let r := truncCore MAX_OUTPUT_BYTES MAX_OUTPUT_LINES output.data
  (⟨r.1⟩, r.2)

/-! ### Lemmas about the truncation primitives -/

theorem charBytes_pos (c : Char) : 1 ≤ charBytes c := by
  unfold charBytes; split <;> [omega; skip]; split <;> [omega; skip]; split <;> omega

theorem charBytes_le_four (c : Char) : charBytes c ≤ 4 := by
  unfold charBytes; split <;> [omega; skip]; split <;> [omega; skip]; split <;> omega

theorem bytesL_le_four_mul (l : List Char) : bytesL l ≤ 4 * l.length := by
  induction l with
  | nil => simp [bytesL]
  | cons c rest ih =>
    have := charBytes_le_four c
    simp only [bytesL, List.map_cons, List.sum_cons, List.length_cons] at *
    omega

theorem bytesL_single_le (c : Char) : bytesL [c] ≤ 4 := by
  simpa [bytesL] using charBytes_le_four c

/-- The byte-cap loop returns a suffix of its input. -/
theorem halveWhile_suffix (maxBytes fuel : Nat) (l : List Char) :
    (halveWhile maxBytes fuel l) <:+ l := by
  induction fuel generalizing l with
  | zero => exact List.suffix_refl l
  | succ fuel ih =>
    unfold halveWhile
    split
    · exact (ih _).trans (List.drop_suffix _ l)
    · exact List.suffix_refl l

theorem halveWhile_length_le (maxBytes fuel : Nat) (l : List Char) :
    (halveWhile maxBytes fuel l).length ≤ l.length :=
  (halveWhile_suffix maxBytes fuel l).sublist.length_le

theorem half_ge_one {n : Nat} (h : 2 ≤ n) : 1 ≤ n / 2 :=
  (Nat.le_div_iff_mul_le (by omega)).mpr (by omega)

/-- With a byte cap of at least 4 and enough fuel, the byte-cap loop reaches
the cap. -/
theorem bytesL_halveWhile_le (maxBytes : Nat) (h4 : 4 ≤ maxBytes) :
    ∀ (fuel : Nat) (l : List Char), l.length ≤ fuel →
      bytesL (halveWhile maxBytes fuel l) ≤ maxBytes := by
  intro fuel
  induction fuel with
  | zero =>
    intro l hl
    have : l = [] := List.length_eq_zero.mp (Nat.le_zero.mp hl)
    simp [this, halveWhile, bytesL]
  | succ fuel ih =>
    intro l hl
    unfold halveWhile
    by_cases hcond : maxBytes < bytesL l ∧ 0 < l.length
    · rw [if_pos hcond]
      match l, hl, hcond with
      | [], _, hcond => simp at hcond
      | [c], _, hcond =>
        have := bytesL_single_le c
        omega
      | c1 :: c2 :: rest, hl, hcond =>
        apply ih
        have hhalf : 1 ≤ (c1 :: c2 :: rest).length / 2 :=
          half_ge_one (by simp only [List.length_cons]; omega)
        have hds := Nat.div_le_self (c1 :: c2 :: rest).length 2
        simp only [List.length_drop]
        simp only [List.length_cons] at hl hhalf hds ⊢
        omega
    · rw [if_neg hcond]
      push_neg at hcond
      by_cases hb : maxBytes < bytesL l
      · have := hcond hb
        have : l = [] := List.length_eq_zero.mp (by omega)
        simp [this, bytesL] at hb
      · omega

/-- When the input is over the byte cap (cap ≥ 4), the loop strictly shortens. -/
theorem halveWhile_length_lt (maxBytes : Nat) (h4 : 4 ≤ maxBytes)
    (fuel : Nat) (l : List Char) (hfuel : l.length ≤ fuel) (hover : maxBytes < bytesL l) :
    (halveWhile maxBytes fuel l).length < l.length := by
  match l, hfuel, hover with
  | [], _, hover => simp [bytesL] at hover
  | [c], _, hover =>
    have := bytesL_single_le c
    omega
  | c1 :: c2 :: rest, hfuel, hover =>
    match fuel, hfuel with
    | 0, hfuel => simp at hfuel
    | fuel + 1, hfuel =>
      unfold halveWhile
      rw [if_pos ⟨hover, by simp⟩]
      calc (halveWhile maxBytes fuel ((c1 :: c2 :: rest).drop ((c1 :: c2 :: rest).length / 2))).length
          ≤ ((c1 :: c2 :: rest).drop ((c1 :: c2 :: rest).length / 2)).length :=
            halveWhile_length_le _ _ _
        _ < (c1 :: c2 :: rest).length := by
            have hhalf : 1 ≤ (c1 :: c2 :: rest).length / 2 :=
              half_ge_one (by simp only [List.length_cons]; omega)
            have hds := Nat.div_le_self (c1 :: c2 :: rest).length 2
            simp only [List.length_drop]
            simp only [List.length_cons] at hhalf hds ⊢
            omega

/-- Pieces produced by `splitOn` do not contain the separator. -/
theorem not_mem_of_mem_splitOn {a : Char} {l piece : List Char}
    (h : piece ∈ l.splitOn a) : a ∉ piece := by
  induction l generalizing piece with
  | nil =>
    simp only [List.splitOn_nil, List.mem_singleton] at h
    simp [h]
  | cons hd tl ih =>
    simp only [List.splitOn] at h ih
    rw [List.splitOnP_cons] at h
    by_cases hda : hd = a
    · rw [if_pos (by simpa using hda)] at h
      rcases List.mem_cons.mp h with h1 | h2
      · simp [h1]
      · exact ih h2
    · rw [if_neg (by simpa using hda)] at h
      rcases hsp : tl.splitOnP (· == a) with _ | ⟨p, ps⟩
      · exact absurd hsp (List.splitOnP_ne_nil _ tl)
      · rw [hsp] at h
        simp only [List.modifyHead, List.mem_cons] at h
        rcases h with h1 | h2
        · subst h1
          intro hmem
          rcases List.mem_cons.mp hmem with h3 | h4
          · exact hda h3.symm
          · exact ih (by rw [hsp]; exact List.mem_cons_self p ps) h4
        · exact ih (by rw [hsp]; exact List.mem_cons_of_mem p h2)

/-- `splitOn` produces one more piece than separator occurrences. -/
theorem length_splitOn (a : Char) (l : List Char) :
    (l.splitOn a).length = l.count a + 1 := by
  induction l with
  | nil => simp
  | cons hd tl ih =>
    simp only [List.splitOn] at ih ⊢
    rw [List.splitOnP_cons]
    by_cases hda : hd = a
    · rw [if_pos (by simpa using hda)]
      simp [List.count_cons, hda, ih]
    · rw [if_neg (by simpa using hda)]
      simp [List.count_cons, hda, ih]

theorem splitOn_ne_nil (a : Char) (l : List Char) : l.splitOn a ≠ [] :=
  List.splitOnP_ne_nil _ l

/-- Separator count of a join of separator-free pieces. -/
theorem count_joinNlL (parts : List (List Char)) (hfree : ∀ p ∈ parts, '\n' ∉ p)
    (hne : parts ≠ []) : (joinNlL parts).count '\n' = parts.length - 1 := by
  have hsplit := List.splitOn_intercalate parts '\n' hfree hne
  have hlen := length_splitOn '\n' (List.intercalate ['\n'] parts)
  rw [hsplit] at hlen
  unfold joinNlL
  omega

/-- Core specification of `truncCore`: both caps hold, and the flag is set
exactly when the content changed. -/
theorem truncCore_spec (B L : Nat) (hB : 4 ≤ B) (hL : 1 ≤ L) (l : List Char) :
    bytesL (truncCore B L l).1 ≤ B ∧
    (splitNlL (truncCore B L l).1).length ≤ L ∧
    ((truncCore B L l).2 = true ↔ (truncCore B L l).1 ≠ l) := by
  have hlines_pos : 1 ≤ (splitNlL l).length :=
    List.length_pos.mpr (splitOn_ne_nil '\n' l)
  have h2le : (truncLines L (splitNlL l)).length ≤ L := by
    unfold truncLines
    split
    · rw [List.length_drop]; omega
    · omega
  have h2pos : 1 ≤ (truncLines L (splitNlL l)).length := by
    unfold truncLines
    split
    · rw [List.length_drop]; omega
    · exact hlines_pos
  have h2ne : truncLines L (splitNlL l) ≠ [] := List.length_pos.mp h2pos
  have hfree : ∀ p ∈ truncLines L (splitNlL l), '\n' ∉ p := by
    intro p hp
    refine not_mem_of_mem_splitOn (show p ∈ l.splitOn '\n' from ?_)
    unfold truncLines at hp
    simp only [splitNlL] at hp
    split at hp
    · exact List.mem_of_mem_drop hp
    · exact hp
  have hcount_l : l.count '\n' = (splitNlL l).length - 1 := by
    have := length_splitOn '\n' l
    simp only [splitNlL]
    omega
  simp only [truncCore]
  set lines2 := truncLines L (splitNlL l) with hl2
  set joined := joinNlL lines2 with hj
  have hcount_joined : joined.count '\n' = lines2.length - 1 :=
    count_joinNlL lines2 hfree h2ne
  have hjoined_eq_of_not_line : ¬ L < (splitNlL l).length → joined = l := by
    intro hline
    rw [hj, hl2]
    unfold truncLines
    rw [if_neg hline]
    unfold joinNlL splitNlL
    exact List.intercalate_splitOn l '\n'
  by_cases hbyte : B < bytesL joined
  · rw [if_pos hbyte]
    dsimp only
    refine ⟨bytesL_halveWhile_le B hB joined.length joined le_rfl, ?_, ?_⟩
    · have hcnt : (halveWhile B joined.length joined).count '\n' ≤ joined.count '\n' :=
        (halveWhile_suffix B joined.length joined).sublist.count_le '\n'
      have hls := length_splitOn '\n' (halveWhile B joined.length joined)
      simp only [splitNlL]
      omega
    · apply iff_of_true rfl
      by_cases hline : L < (splitNlL l).length
      · intro heq
        have hfc : (halveWhile B joined.length joined).count '\n' ≤ joined.count '\n' :=
          (halveWhile_suffix B joined.length joined).sublist.count_le '\n'
        rw [heq] at hfc
        omega
      · intro heq
        have hjl := hjoined_eq_of_not_line hline
        have hlt := halveWhile_length_lt B hB joined.length joined le_rfl hbyte
        rw [heq, hjl] at hlt
        omega
  · rw [if_neg hbyte]
    dsimp only
    push_neg at hbyte
    refine ⟨hbyte, ?_, ?_⟩
    · have hls := length_splitOn '\n' joined
      simp only [splitNlL]
      omega
    · rw [decide_eq_true_eq]
      constructor
      · intro hline heq
        rw [heq] at hcount_joined
        omega
      · intro hne
        by_contra hnl
        exact hne (hjoined_eq_of_not_line hnl)

/-- **C5** — For every input string, the output-truncation function returns a
string whose UTF-8 byte length is at most `MAX_OUTPUT_BYTES` (50 KiB) and
whose newline-split line count is at most `MAX_OUTPUT_LINES` (2000), keeping
the last 2000 lines first and then repeatedly dropping the first half of the
string while over the byte cap; the returned truncated flag is true if and
only if either cap actually reduced the content. -/
theorem truncateOutput_caps_and_flag (s : String) :
    jsByteLength (truncateOutput s).1 ≤ MAX_OUTPUT_BYTES ∧
    (splitNlL (truncateOutput s).1.data).length ≤ MAX_OUTPUT_LINES ∧
    ((truncateOutput s).2 = true ↔ (truncateOutput s).1 ≠ s) := by
  have h := truncCore_spec MAX_OUTPUT_BYTES MAX_OUTPUT_LINES
    (by unfold MAX_OUTPUT_BYTES; omega) (by unfold MAX_OUTPUT_LINES; omega) s.data
  refine ⟨h.1, h.2.1, ?_⟩
  have hmk : ((⟨(truncCore MAX_OUTPUT_BYTES MAX_OUTPUT_LINES s.data).1⟩ : String) = s) ↔
      (truncCore MAX_OUTPUT_BYTES MAX_OUTPUT_LINES s.data).1 = s.data := by
    constructor
    · intro hh; exact congrArg String.data hh
    · intro hh; exact congrArg String.mk hh
  exact h.2.2.trans (not_congr hmk).symm

/-! ## Review decision parsing (`dag.ts`, `parseReviewDecision`) -/

/-- The no-marker fallback of `parseReviewDecision`: inspect the last 200
characters of the trimmed output, lowercased. -/
def reviewFallback (trimmed : List Char) : Bool × List Char :=
  let lastChunk := toLowerL (takeRightL 200 trimmed)
  if hasInfixL lastChunk ("approved".data)
      && !hasInfixL lastChunk ("not approved".data)
      && !hasInfixL lastChunk ("revision".data) then
    (true, trimmed)
  else
    (false, trimmed)

/-- The scanning loop of `parseReviewDecision`: walk the lines from the end,
skip blank lines, stop at the first non-blank one; returns that line together
with all lines before it. -/
def scanBack (lines : List (List Char)) : Option (List (List Char) × List Char) :=
  match lines.reverse.dropWhile (fun ln => (trimL ln).isEmpty) with
  | ln :: preRev => some (preRev.reverse, ln)
  | [] => none

/-- `parseReviewDecision` on the character list. -/
def parseReviewCore (output : List Char) : Bool × List Char :=
  let trimmed := trimL output
  let lines := splitNlL trimmed
  match scanBack lines with
  | some (pre, ln) =>
    if trimL ln = "APPROVED".data then (true, trimL (joinNlL pre))
    else if trimL ln = "REVISION_NEEDED".data then (false, trimL (joinNlL pre))
    else reviewFallback trimmed
  | none => reviewFallback trimmed

/-- `parseReviewDecision(output)`, returning `(approved, feedback)`. -/
def parseReviewDecision (output : String) : Bool × String :=
  let r := parseReviewCore output.data
  (r.1, ⟨r.2⟩)

/-- Claim-side description of the scan: the last non-blank line together with
the lines preceding it, computed by a front-to-back recursion that prefers
later matches. -/
def lastNonBlankSplit : List (List Char) → Option (List (List Char) × List Char)
  | [] => none
  | ln :: rest =>
    match lastNonBlankSplit rest with
    | some (pre, found) => some (ln :: pre, found)
    | none => if (trimL ln).isEmpty then none else some ([], ln)

/-- Claim-side description of the whole decision parser. -/
def reviewDecisionSpec (output : String) : Bool × String :=
  let trimmed := trimL output.data
  let lastChunk := toLowerL (takeRightL 200 trimmed)
  let fallbackApproved : Bool :=
    hasInfixL lastChunk ("approved".data)
      && !hasInfixL lastChunk ("not approved".data)
      && !hasInfixL lastChunk ("revision".data)
  match lastNonBlankSplit (splitNlL trimmed) with
  | some (pre, ln) =>
    if trimL ln = "APPROVED".data then (true, ⟨trimL (joinNlL pre)⟩)
    else if trimL ln = "REVISION_NEEDED".data then (false, ⟨trimL (joinNlL pre)⟩)
    else (fallbackApproved, ⟨trimmed⟩)
  | none => (fallbackApproved, ⟨trimmed⟩)

theorem lastNonBlankSplit_append_blank (l' : List (List Char)) (a : List Char)
    (h : (trimL a).isEmpty = true) :
    lastNonBlankSplit (l' ++ [a]) = lastNonBlankSplit l' := by
  induction l' with
  | nil => simp [lastNonBlankSplit, h]
  | cons x xs ih =>
    simp only [List.cons_append, lastNonBlankSplit, List.append_eq]
    rw [ih]

theorem lastNonBlankSplit_append_nonblank (l' : List (List Char)) (a : List Char)
    (h : (trimL a).isEmpty = false) :
    lastNonBlankSplit (l' ++ [a]) = some (l', a) := by
  induction l' with
  | nil => simp [lastNonBlankSplit, h]
  | cons x xs ih =>
    simp only [List.cons_append, lastNonBlankSplit, List.append_eq]
    rw [ih]

/-- The backwards scan of the source agrees with the claim-side description. -/
theorem scanBack_eq_lastNonBlankSplit (lines : List (List Char)) :
    scanBack lines = lastNonBlankSplit lines := by
  induction lines using List.reverseRecOn with
  | nil => rfl
  | append_singleton l' a ih =>
    cases ha : (trimL a).isEmpty with
    | true =>
      have h1 : scanBack (l' ++ [a]) = scanBack l' := by
        unfold scanBack
        rw [List.reverse_append]
        simp [List.dropWhile, ha]
      rw [h1, ih, lastNonBlankSplit_append_blank l' a ha]
    | false =>
      have h1 : scanBack (l' ++ [a]) = some (l', a) := by
        unfold scanBack
        rw [List.reverse_append]
        simp [List.dropWhile, ha]
      rw [h1, lastNonBlankSplit_append_nonblank l' a ha]

theorem reviewFallback_eq (t : List Char) :
    reviewFallback t =
      (hasInfixL (toLowerL (takeRightL 200 t)) ("approved".data)
        && !hasInfixL (toLowerL (takeRightL 200 t)) ("not approved".data)
        && !hasInfixL (toLowerL (takeRightL 200 t)) ("revision".data), t) := by
  simp only [reviewFallback]
  cases hc : (hasInfixL (toLowerL (takeRightL 200 t)) ("approved".data)
      && !hasInfixL (toLowerL (takeRightL 200 t)) ("not approved".data)
      && !hasInfixL (toLowerL (takeRightL 200 t)) ("revision".data)) <;>
    simp [hc]

/-- **C4** — For every string, `parseReviewDecision` returns (it is a total
function) exactly the decision described by the specification: `APPROVED` /
`REVISION_NEEDED` as the last non-blank line (compared after trimming) decide
with the preceding lines as feedback; otherwise the 200-character lowercased
tail heuristic applies, with the entire trimmed output as feedback. -/
theorem parseReviewDecision_eq_spec (s : String) :
    parseReviewDecision s = reviewDecisionSpec s := by
  simp only [parseReviewDecision, parseReviewCore, reviewDecisionSpec,
    scanBack_eq_lastNonBlankSplit]
  cases hscan : lastNonBlankSplit (splitNlL (trimL s.data)) with
  | none => rw [reviewFallback_eq]
  | some pr =>
    obtain ⟨pre, ln⟩ := pr
    by_cases h1 : trimL ln = "APPROVED".data
    · simp [h1]
    · by_cases h2 : trimL ln = "REVISION_NEEDED".data
      · simp [h1, h2]
      · simp [h1, h2, reviewFallback_eq]
/-! ## Task results and the agent executor (`executor.ts`) -/

/-- Final result from a single task execution (`TaskResult` in `types.ts`).
Usage counters are omitted: no statement below concerns them. -/
structure TaskResult where
  id : String
  name : Option String := none
  task : String := ""
  model : Option String := none
  exitCode : Nat
  output : String := ""
  fullOutputPath : Option String := none
  stderr : String := ""
  truncated : Bool := false
  durationMs : Nat := 0
  error : Option String := none
  aborted : Bool := false
  step : Option Nat := none
deriving Repr, DecidableEq

/-- One part of a message's `content` array. -/
inductive MsgPart where
  | text (s : String)
  | other
deriving Repr, DecidableEq

/-- A message from the child's event stream. -/
structure Msg where
  role : String
  content : List MsgPart
  stopReason : Option String := none
  errorMessage : Option String := none
deriving Repr, DecidableEq

/-- One line of the child's newline-delimited JSON event stream
(only the variants the executor dispatches on). -/
inductive Event where
  | messageEnd (msg : Msg)
  | toolResultEnd (msg : Msg)
  | toolExecStart
  | toolExecEnd
  | otherEvent
deriving Repr, DecidableEq

/-- First `text` part of a content array (the inner loop of `getFinalOutput`). -/
def firstTextPart : List MsgPart → Option String
  | [] => none
  | .text s :: _ => some s
  | .other :: rest => firstTextPart rest

/-- Backwards scan of `getFinalOutput`: from the last message towards the
first, return the first `text` part of the first assistant message that has
one; keep scanning when an assistant message has no text part. -/
def getFinalOutputRev : List Msg → String
  | [] => ""
  | m :: rest =>
    if m.role = "assistant" then
      match firstTextPart m.content with
      | some s => s
      | none => getFinalOutputRev rest
    else getFinalOutputRev rest

/-- `getFinalOutput(messages)`. -/
def getFinalOutput (messages : List Msg) : String :=
  getFinalOutputRev messages.reverse

/-- The `messages` array accumulated by `runAgent`: `message_end` and
`tool_result_end` events push their message. -/
def collectMessages : List Event → List Msg
  | [] => []
  | .messageEnd m :: rest => m :: collectMessages rest
  | .toolResultEnd m :: rest => m :: collectMessages rest
  | _ :: rest => collectMessages rest

/-- `rawMsg.stopReason === "error" && rawMsg.errorMessage` for an assistant
message (`errorMessage` is truthy exactly when it is a non-empty string). -/
def isApiErrorMsg (m : Msg) : Bool :=
  m.role = "assistant" && m.stopReason = some "error" && m.errorMessage.getD "" ≠ ""

/-- Update of the executor's `apiError` variable for one `message_end`. -/
def apiErrorStep (acc : String) (m : Msg) : String :=
  if isApiErrorMsg m then m.errorMessage.getD "" else acc

def apiErrorAux (acc : String) : List Event → String
  | [] => acc
  | .messageEnd m :: rest => apiErrorAux (apiErrorStep acc m) rest
  | _ :: rest => apiErrorAux acc rest

/-- The `apiError` recorded while processing the event stream (last writer
wins; the empty string means none was recorded). -/
def apiErrorOfEvents (events : List Event) : String := apiErrorAux "" events

/-- The result-assembly tail of `runAgent`: final output extraction,
truncation, the non-zero-exit error, and the API-error rewrite. -/
def mkRunResult (id : String) (name : Option String) (task : String)
    (model : Option String) (step : Option Nat) (durationMs : Nat)
    (exitCode : Nat) (events : List Event) (stderr : String)
    (wasAborted : Bool) : TaskResult :=
  let tr := truncateOutput (getFinalOutput (collectMessages events))
  let base : TaskResult :=
    { id := id, name := name, task := task, model := model, exitCode := exitCode,
      output := tr.1, stderr := stderr, truncated := tr.2,
      durationMs := durationMs, aborted := wasAborted, step := step }
  let base1 :=
    if exitCode ≠ 0 ∧ ¬ base.aborted then
      { base with error := some (if stderr ≠ "" then stderr else "Exit code: " ++ toString exitCode) }
    else base
  let apiError := apiErrorOfEvents events
  if apiError ≠ "" ∧ base1.error = none then
    { base1 with error := some apiError, exitCode := 1 }
  else base1

/-- A recorded API error exists iff some assistant `message_end` carried
`stopReason == "error"` together with a non-empty `errorMessage`. -/
theorem apiErrorAux_ne_iff (events : List Event) :
    ∀ acc : String,
      (apiErrorAux acc events ≠ "" ↔
        acc ≠ "" ∨ ∃ m, Event.messageEnd m ∈ events ∧ isApiErrorMsg m = true) := by
  induction events with
  | nil => simp [apiErrorAux]
  | cons ev rest ih =>
    intro acc
    match ev with
    | .messageEnd m =>
      simp only [apiErrorAux]
      rw [ih]
      unfold apiErrorStep
      by_cases hm : isApiErrorMsg m = true
      · rw [if_pos hm]
        have hne : m.errorMessage.getD "" ≠ "" := by
          unfold isApiErrorMsg at hm
          simp only [Bool.and_eq_true, decide_eq_true_eq] at hm
          exact hm.2
        constructor
        · intro _
          exact Or.inr ⟨m, List.mem_cons_self _ _, hm⟩
        · intro _
          exact Or.inl hne
      · rw [if_neg hm]
        constructor
        · rintro (ha | ⟨m', hmem, hm'⟩)
          · exact Or.inl ha
          · exact Or.inr ⟨m', List.mem_cons_of_mem _ hmem, hm'⟩
        · rintro (ha | ⟨m', hmem, hm'⟩)
          · exact Or.inl ha
          · rcases List.mem_cons.mp hmem with heq | hmem'
            · cases heq
              exact absurd hm' hm
            · exact Or.inr ⟨m', hmem', hm'⟩
    | .toolResultEnd m =>
      simp only [apiErrorAux]
      rw [ih]
      simp
    | .toolExecStart =>
      simp only [apiErrorAux]
      rw [ih]
      simp
    | .toolExecEnd =>
      simp only [apiErrorAux]
      rw [ih]
      simp
    | .otherEvent =>
      simp only [apiErrorAux]
      rw [ih]
      simp

/-- **C6** — For every executor run in which the child exits with code 0:
if an assistant message carried `stopReason == "error"` with a non-empty
`errorMessage`, the returned `TaskResult` has `exitCode` rewritten to 1 and
`error` equal to the recorded error message; with no API-level error
recorded, `exitCode` stays 0 and `error` stays unset.  The last conjunct
identifies "recorded" with the presence of such an assistant message. -/
theorem runAgent_api_error_rewrite (id : String) (name : Option String)
    (task : String) (model : Option String) (step : Option Nat)
    (durationMs : Nat) (events : List Event) (stderr : String)
    (wasAborted : Bool) :
    (mkRunResult id name task model step durationMs 0 events stderr wasAborted).exitCode
        = (if apiErrorOfEvents events = "" then 0 else 1) ∧
    (mkRunResult id name task model step durationMs 0 events stderr wasAborted).error
        = (if apiErrorOfEvents events = "" then none else some (apiErrorOfEvents events)) ∧
    (apiErrorOfEvents events ≠ "" ↔
      ∃ m, Event.messageEnd m ∈ events ∧ isApiErrorMsg m = true) := by
  refine ⟨?_, ?_, by simpa using apiErrorAux_ne_iff events ""⟩ <;>
  · simp only [mkRunResult]
    by_cases he : apiErrorOfEvents events = ""
    · simp [he]
    · simp [he]

/-- **C9 (amended)** — The final textual output of a run is the *first* text
part of the last assistant message that has a text part, found by scanning
the message list from the end, and the empty string when no assistant message
with a text part exists. -/
theorem getFinalOutput_first_text_of_last_assistant (messages : List Msg) :
    getFinalOutput messages =
      (messages.reverse.findSome? (fun m =>
        if m.role = "assistant" then firstTextPart m.content else none)).getD "" := by
  unfold getFinalOutput
  generalize messages.reverse = l
  induction l with
  | nil => rfl
  | cons m rest ih =>
    simp only [getFinalOutputRev, List.findSome?_cons]
    by_cases hrole : m.role = "assistant"
    · rw [if_pos hrole, if_pos hrole]
      cases hft : firstTextPart m.content with
      | some s => simp
      | none => simpa using ih
    · rw [if_neg hrole, if_neg hrole]
      exact ih

/-- **C9 counterexample** — for an assistant message whose content is
`[text "A", text "B"]`, `getFinalOutput` returns the first text part `"A"`,
not the last text part `"B"`. -/
theorem getFinalOutput_not_last_text_part :
    getFinalOutput
        [{ role := "assistant", content := [MsgPart.text "A", MsgPart.text "B"] }]
      = "A" ∧
    ("A" : String) ≠ "B" :=
  ⟨rfl, by decide⟩

/-! ## Workspace persistence (`workspace.ts`) -/

/-- `taskId.replace(/[^\w.-]/g, "_")`: every character outside
`[A-Za-z0-9_.-]` becomes an underscore. -/
def sanitizeTaskId (taskId : String) : String :=
  ⟨taskId.data.map (fun c =>
    if c.isAlphanum || c = '_' || c = '.' || c = '-' then c else '_')⟩

/-- The workspace file a task result is persisted to:
`tasks/<sanitized>.json` (given here relative to the `tasks` directory). -/
def taskFileName (taskId : String) : String := sanitizeTaskId taskId ++ ".json"

/-- The JSON body of a persisted task result:
`{ id, status, output, timestamp }` with the original (unsanitized) id. -/
structure TaskResultFile where
  id : String
  status : String
  output : String
  timestamp : Nat
deriving Repr, DecidableEq

/-- A file store mapping paths to task-result files; a write replaces any
earlier file at the same path. -/
def fsWrite (fs : List (String × TaskResultFile)) (path : String)
    (content : TaskResultFile) : List (String × TaskResultFile) :=
  fs.filter (fun p => p.1 ≠ path) ++ [(path, content)]

def fsRead (fs : List (String × TaskResultFile)) (path : String) :
    Option TaskResultFile :=
  (fs.find? (fun p => p.1 = path)).map (·.2)

/-- `writeTaskResult(workspace, taskId, output, status)`: writes
`tasks/<sanitized-id>.json` containing `{id, status, output, timestamp}`. -/
def writeTaskResult (fs : List (String × TaskResultFile)) (tasksDir : String)
    (taskId output status : String) (timestamp : Nat) :
    List (String × TaskResultFile) :=
  fsWrite fs (tasksDir ++ "/" ++ taskFileName taskId)
    { id := taskId, status := status, output := output, timestamp := timestamp }

/-- **C10** — The workspace file name is not injective in the task id:
`"a/b"` and `"a:b"` are distinct ids mapped to the same `tasks/a_b.json`
path, so the later `writeTaskResult` overwrites the earlier task's persisted
result (one file remains and it holds the second task's data), while the JSON
body still records the original unsanitized id. -/
theorem writeTaskResult_id_collision :
    ("a/b" : String) ≠ "a:b" ∧
    taskFileName "a/b" = "a_b.json" ∧
    taskFileName "a:b" = "a_b.json" ∧
    (let fs1 := writeTaskResult [] "tasks" "a/b" "first" "completed" 1
     let fs2 := writeTaskResult fs1 "tasks" "a:b" "second" "completed" 2
     fsRead fs1 "tasks/a_b.json" =
        some { id := "a/b", status := "completed", output := "first", timestamp := 1 } ∧
     fs2.length = 1 ∧
     fsRead fs2 "tasks/a_b.json" =
        some { id := "a:b", status := "completed", output := "second", timestamp := 2 }) := by
  refine ⟨by decide, by decide, by decide, by decide, by decide, by decide⟩

/-! ## DAG engine (`dag.ts`) -/

/-- Node status in the DAG state machine. -/
inductive DagStatus where
  | pending
  | blocked
  | ready
  | running
  | completed
  | failed
  | awaiting_approval
  | reviewing
  | revising
deriving Repr, DecidableEq

/-- `ReviewConfig` (the provider/model/tools overrides do not affect the
control flow modeled here and are omitted). -/
structure ReviewCfg where
  assignee : String
  task : Option String := none
  maxIterations : Option Nat := none
deriving Repr, DecidableEq

/-- `TeamTask`. -/
structure TeamTask where
  id : String
  task : String
  assignee : Option String := none
  depends : List String := []
  requiresApproval : Bool := false
  review : Option ReviewCfg := none
deriving Repr, DecidableEq

/-- A team member (only the role matters for the control flow here). -/
structure TeamMember where
  role : String
  model : Option String := none
deriving Repr, DecidableEq

/-- An entry of a node's `reviewHistory`. -/
structure ReviewEntry where
  iteration : Nat
  workerOutput : String
  reviewerOutput : String
  approved : Bool
deriving Repr, DecidableEq

/-- `DagNode`.  `iteration = 0` models the JS `undefined` (both are falsy). -/
structure DagNode where
  task : TeamTask
  assignee : Option TeamMember := none
  dependsOn : List String
  dependedBy : List String := []
  status : DagStatus
  result : Option TaskResult := none
  iteration : Nat := 0
  reviewHistory : List ReviewEntry := []
  iterationResults : List TaskResult := []
deriving Repr, DecidableEq

/-- `nodes.get(id)` on the insertion-ordered node list. -/
def lookupNode (nodes : List DagNode) (id : String) : Option DagNode :=
  nodes.find? (fun n => n.task.id = id)

def statusOf (nodes : List DagNode) (id : String) : Option DagStatus :=
  (lookupNode nodes id).map (fun n => n.status)

/-- In-place mutation of the node with the given id. -/
def setNode (nodes : List DagNode) (id : String) (f : DagNode → DagNode) :
    List DagNode :=
  nodes.map (fun n => if n.task.id = id then f n else n)

/-- One step of `updateReadyState` for the node with the given id: a pending
node becomes `blocked` when some direct dependency is `failed`, `ready` when
every direct dependency is `completed`, and stays `pending` otherwise. -/
def updateOne (nodes : List DagNode) (id : String) : List DagNode :=
  match lookupNode nodes id with
  | none => nodes
  | some n =>
    if n.status = .pending then
      let anyDepFailed := n.dependsOn.any (fun d => statusOf nodes d == some .failed)
      let allDepsComplete := n.dependsOn.all (fun d => statusOf nodes d == some .completed)
      if anyDepFailed then setNode nodes id (fun m => { m with status := .blocked })
      else if allDepsComplete then setNode nodes id (fun m => { m with status := .ready })
      else nodes
    else nodes

/-- `updateReadyState(nodes)`: one pass over the map in insertion order,
mutating in place (later checks see earlier updates of the same pass). -/
def updateReadyState (nodes : List DagNode) : List DagNode :=
  (nodes.map (fun n => n.task.id)).foldl updateOne nodes

def getReadyTasks (nodes : List DagNode) : List DagNode :=
  nodes.filter (fun n => n.status == .ready)

def isDagComplete (nodes : List DagNode) : Bool :=
  nodes.all (fun n => n.status == .completed || n.status == .failed || n.status == .blocked)

def getPendingApproval (nodes : List DagNode) : Option DagNode :=
  nodes.find? (fun n => n.status == .awaiting_approval)

/-- Default max review iterations (`DEFAULT_MAX_ITERATIONS`). -/
def DEFAULT_MAX_ITERATIONS : Nat := 3

/-- The environment a DAG run executes in: `agent k` is the `TaskResult` of
the `k`-th `runAgent` call, `approval k` the `k`-th approval decision,
`abortAt` the signal-check count at which the `AbortSignal` turns aborted
(`none` = never). -/
structure DagEnv where
  agent : Nat → TaskResult
  approval : Nat → Bool × Option String
  hasApprovalHandler : Bool
  abortAt : Option Nat := none

def sigFired (env : DagEnv) (k : Nat) : Bool :=
  match env.abortAt with
  | some t => decide (t ≤ k)
  | none => false

/-- Mutable context threaded through a review cycle: the `allResults` list
plus the call counters. -/
structure RunCtx where
  results : List TaskResult
  agentK : Nat
  sigK : Nat
deriving Repr

/-- How a review cycle returned (instrumentation of the exit path). -/
inductive ReviewExit where
  | fuelOut
  | loopEnd
  | sigAborted
  | reviewerFailed
  | decided
  | revisionFailed
deriving Repr, DecidableEq

/-- The `while (node.iteration <= maxIter)` loop of `runReviewCycle`.
Structural recursion on fuel; the iteration counter strictly increases, so
`fuel = maxIter + 1` always suffices. -/
def reviewLoop (env : DagEnv) (maxIter : Nat) :
    Nat → DagNode → RunCtx → DagNode × RunCtx × ReviewExit
  | 0, n, ctx => (n, ctx, .fuelOut)
  | fuel + 1, n, ctx =>
    if n.iteration ≤ maxIter then
      let fired := sigFired env ctx.sigK
      let ctx1 := { ctx with sigK := ctx.sigK + 1 }
      if fired then (n, ctx1, .sigAborted)
      else
        let workerOutput := (n.result.map TaskResult.output).getD ""
        let n1 := { n with status := .reviewing }
        let reviewResult := env.agent ctx1.agentK
        let ctx2 :=
          { ctx1 with
            agentK := ctx1.agentK + 1
            results := ctx1.results ++ [reviewResult] }
        let n2 := { n1 with iterationResults := n1.iterationResults ++ [reviewResult] }
        if reviewResult.exitCode ≠ 0 ∨ reviewResult.aborted then
          ({ n2 with status := .completed }, ctx2, .reviewerFailed)
        else
          let decision := parseReviewDecision reviewResult.output
          let entry : ReviewEntry :=
            { iteration := n2.iteration
              workerOutput := workerOutput
              reviewerOutput := reviewResult.output
              approved := decision.1 }
          let n3 := { n2 with reviewHistory := n2.reviewHistory ++ [entry] }
          if decision.1 = true ∨ maxIter ≤ n3.iteration then
            ({ n3 with status := .completed }, ctx2, .decided)
          else
            let n4 := { n3 with iteration := n3.iteration + 1, status := .revising }
            let revisionResult := env.agent ctx2.agentK
            let ctx3 :=
              { ctx2 with
                agentK := ctx2.agentK + 1
                results := ctx2.results ++ [revisionResult] }
            let n5 := { n4 with iterationResults := n4.iterationResults ++ [revisionResult] }
            if revisionResult.exitCode ≠ 0 ∨ revisionResult.aborted then
              ({ n5 with status := .failed, result := some revisionResult }, ctx3, .revisionFailed)
            else
              reviewLoop env maxIter fuel { n5 with result := some revisionResult } ctx3
    else (n, ctx, .loopEnd)

/-- `review.maxIterations ?? DEFAULT_MAX_ITERATIONS` for a node. -/
def nodeMaxIter (node : DagNode) : Nat :=
  match node.task.review with
  | some rc => rc.maxIterations.getD DEFAULT_MAX_ITERATIONS
  | none => DEFAULT_MAX_ITERATIONS

/-- `runReviewCycle(node)`: resolve `maxIterations ?? 3`, apply the
`if (!node.iteration) node.iteration = 1` guard, run the loop. -/
def runReviewCycle (env : DagEnv) (node : DagNode) (ctx : RunCtx) :
    DagNode × RunCtx × ReviewExit :=
  let node1 := if node.iteration = 0 then { node with iteration := 1 } else node
  reviewLoop env (nodeMaxIter node) (nodeMaxIter node + 1) node1 ctx

/-- State of a DAG run between scheduler steps. -/
structure DagSt where
  nodes : List DagNode
  results : List TaskResult := []
  agentK : Nat := 0
  approvalK : Nat := 0
  sigK : Nat := 0

/-- Processing of one `{taskId, result}` from a finished batch: store the
result, then route by failure / approval gate / review config. -/
def processOne (env : DagEnv) (st : DagSt) (pr : String × TaskResult) : DagSt :=
  let taskId := pr.1
  let result := pr.2
  let nodes1 := setNode st.nodes taskId (fun m => { m with result := some result })
  let st1 : DagSt := { st with nodes := nodes1, results := st.results ++ [result] }
  match lookupNode st1.nodes taskId with
  | none => st1
  | some n =>
    if result.exitCode ≠ 0 ∨ result.aborted then
      { st1 with nodes := setNode st1.nodes taskId (fun m => { m with status := .failed }) }
    else if n.task.requiresApproval then
      { st1 with nodes := setNode st1.nodes taskId (fun m => { m with status := .awaiting_approval }) }
    else if n.task.review.isSome then
      let nodes2 := setNode st1.nodes taskId (fun m =>
        { m with iteration := 1, reviewHistory := [], iterationResults := [result] })
      match lookupNode nodes2 taskId with
      | none => { st1 with nodes := nodes2 }
      | some n2 =>
        let rr := runReviewCycle env n2 { results := st1.results, agentK := st1.agentK, sigK := st1.sigK }
        { nodes := setNode nodes2 taskId (fun _ => rr.1),
          results := rr.2.1.results, agentK := rr.2.1.agentK,
          approvalK := st1.approvalK, sigK := rr.2.1.sigK }
    else
      { st1 with nodes := setNode st1.nodes taskId (fun m => { m with status := .completed }) }

/-- The feedback amendment applied to a task whose plan was rejected. -/
def amendRejected (t : TeamTask) (feedback : Option String) : TeamTask :=
  match feedback with
  | some fb => { t with task := t.task ++
      "\n\n[FEEDBACK - your previous plan was rejected]: " ++ fb ++
      "\n\nPlease revise your plan based on this feedback." }
  | none => t

/-- The scheduler loop of `executeDag` (fuel-indexed; one unit of fuel per
`while` iteration).  Returns the final state and the `aborted` flag. -/
def execLoop (env : DagEnv) (maxConcurrency : Nat) :
    Nat → DagSt → DagSt × Bool
  | 0, st => (st, sigFired env st.sigK)
  | fuel + 1, st =>
    if isDagComplete st.nodes then (st, sigFired env st.sigK)
    else
      let fired := sigFired env st.sigK
      let st1 : DagSt := { st with sigK := st.sigK + 1 }
      if fired then (st1, true)
      else
        -- approval sub-protocol; `Sum.inl` = `continue`, `Sum.inr` = fall through
        let step : DagSt ⊕ DagSt :=
          match getPendingApproval st1.nodes with
          | some apn =>
            if env.hasApprovalHandler then
              let d := env.approval st1.approvalK
              let st2 : DagSt := { st1 with approvalK := st1.approvalK + 1 }
              if d.1 then
                let ns := updateReadyState (setNode st2.nodes apn.task.id (fun m => { m with status := .completed }))
                .inl { st2 with nodes := ns }
              else
                let ns := setNode st2.nodes apn.task.id (fun m => { m with status := .ready, task := amendRejected m.task d.2 })
                .inr { st2 with nodes := ns }
            else
              let ns := updateReadyState (setNode st1.nodes apn.task.id (fun m => { m with status := .completed }))
              .inl { st1 with nodes := ns }
          | none => .inr st1
        match step with
        | .inl st' => execLoop env maxConcurrency fuel st'
        | .inr st2 =>
          let ready := getReadyTasks st2.nodes
          if ready.isEmpty then (st2, sigFired env st2.sigK)
          else
            let batchIds := (ready.take maxConcurrency).map (fun n => n.task.id)
            let nodes3 := batchIds.foldl
              (fun ns i => setNode ns i (fun m => { m with status := .running })) st2.nodes
            let pairs := batchIds.enum.map (fun p => (p.2, env.agent (st2.agentK + p.1)))
            let st3 : DagSt := { st2 with nodes := nodes3, agentK := st2.agentK + batchIds.length }
            let st4 := pairs.foldl (processOne env) st3
            execLoop env maxConcurrency fuel { st4 with nodes := updateReadyState st4.nodes }

/-- `executeDag` from a freshly built node list. -/
def executeDag (env : DagEnv) (maxConcurrency fuel : Nat)
    (nodes : List DagNode) : DagSt × Bool :=
  execLoop env maxConcurrency fuel { nodes := nodes }

/-! ### Review-loop invariants (C2) -/

/-- When the review loop exits through the decision branch (reviewer run
succeeded, decision parsed): status is `completed`, the history length equals
the final iteration and is bounded by `maxIter`, and a rejected final entry
forces the iteration to have reached `maxIter`. -/
theorem reviewLoop_decided (env : DagEnv) (maxIter : Nat) :
    ∀ (fuel : Nat) (n : DagNode) (ctx : RunCtx) (n' : DagNode) (ctx' : RunCtx),
      1 ≤ n.iteration →
      n.reviewHistory.length + 1 = n.iteration →
      reviewLoop env maxIter fuel n ctx = (n', ctx', .decided) →
      n'.status = .completed ∧
      n'.reviewHistory.length = n'.iteration ∧
      n'.iteration ≤ maxIter ∧
      (n'.reviewHistory.getLast?.map ReviewEntry.approved = some false →
        n'.iteration = maxIter) := by
  intro fuel
  induction fuel with
  | zero =>
    intro n ctx n' ctx' h1 h2 h3
    simp [reviewLoop] at h3
  | succ fuel ih =>
    intro n ctx n' ctx' h1 h2 h3
    rw [reviewLoop] at h3
    by_cases hit : n.iteration ≤ maxIter
    · rw [if_pos hit] at h3
      by_cases hsig : sigFired env ctx.sigK = true
      · rw [if_pos hsig] at h3
        simp at h3
      · rw [if_neg hsig] at h3
        simp only at h3
        by_cases hrf : (env.agent ctx.agentK).exitCode ≠ 0 ∨ (env.agent ctx.agentK).aborted = true
        · rw [if_pos hrf] at h3
          simp at h3
        · rw [if_neg hrf] at h3
          by_cases hdec : (parseReviewDecision (env.agent ctx.agentK).output).1 = true ∨
              maxIter ≤ n.iteration
          · rw [if_pos hdec] at h3
            simp only [Prod.mk.injEq] at h3
            obtain ⟨hn, -, -⟩ := h3
            subst hn
            refine ⟨rfl, ?_, ?_, ?_⟩
            · simp [h2]
            · simpa using hit
            · intro hlast
              simp only [List.getLast?_append, List.getLast?_cons, List.getLast?_nil,
                Option.or, Option.map_some] at hlast
              have happ : (parseReviewDecision (env.agent ctx.agentK).output).1 = false := by
                simpa using hlast
              rcases hdec with hd | hd
              · rw [happ] at hd; cases hd
              · simpa using le_antisymm hit hd
          · rw [if_neg hdec] at h3
            by_cases hrev : (env.agent (ctx.agentK + 1)).exitCode ≠ 0 ∨
                (env.agent (ctx.agentK + 1)).aborted = true
            · rw [if_pos hrev] at h3
              simp at h3
            · rw [if_neg hrev] at h3
              have := ih _ _ _ _ (by simp) (by simp [h2]) h3
              exact this
    · rw [if_neg hit] at h3
      simp at h3

/-- **C2 (amended)** — For a reviewed node entering the cycle as `executeDag`
initializes it (`iteration = 1`, empty history): when the loop exits through
a parsed review decision (approved, or revision needed at the iteration cap),
the node is `completed`, `reviewHistory.length ≤ maxIterations`, and a final
entry with `approved = false` forces `reviewHistory.length = maxIterations`.
(A reviewer-run failure also completes the node but may leave a shorter
history whose final entry is rejected — see the counterexample.) -/
theorem runReviewCycle_decided_bounds (env : DagEnv) (node : DagNode)
    (ctx : RunCtx) (hiter : node.iteration = 1)
    (hhist : node.reviewHistory = [])
    (hdec : (runReviewCycle env node ctx).2.2 = ReviewExit.decided) :
    (runReviewCycle env node ctx).1.status = DagStatus.completed ∧
    (runReviewCycle env node ctx).1.reviewHistory.length ≤ nodeMaxIter node ∧
    ((runReviewCycle env node ctx).1.reviewHistory.getLast?.map ReviewEntry.approved
        = some false →
      (runReviewCycle env node ctx).1.reviewHistory.length = nodeMaxIter node) := by
  have hne : ¬ node.iteration = 0 := by omega
  simp only [runReviewCycle, if_neg hne] at hdec ⊢
  rcases hloop : reviewLoop env (nodeMaxIter node) (nodeMaxIter node + 1) node ctx
    with ⟨n', ctx', ex⟩
  rw [hloop] at hdec
  simp only at hdec
  subst hdec
  have hmain := reviewLoop_decided env (nodeMaxIter node) (nodeMaxIter node + 1)
    node ctx n' ctx' (by omega) (by simp [hhist, hiter]) hloop
  refine ⟨hmain.1, ?_, ?_⟩
  · rw [hmain.2.1]
    exact hmain.2.2.1
  · intro hlast
    rw [hmain.2.1]
    exact hmain.2.2.2 hlast

/-- A successful agent run with the given output. -/
def rOk (out : String) : TaskResult := { id := "r", exitCode := 0, output := out }

/-- A failed agent run (non-zero exit). -/
def rFail : TaskResult := { id := "r", exitCode := 1 }

/-- A reviewed node as `executeDag` hands it to the review cycle:
`maxIterations = 2`, first worker output `"v1"`. -/
def c2Node : DagNode :=
  { task := { id := "t", task := "do",
              review := some { assignee := "rev", maxIterations := some 2 } }
    dependsOn := []
    status := .running
    result := some (rOk "v1")
    iteration := 1
    reviewHistory := [] }

/-- Reviewer rejects at iteration 1, the revision succeeds, then the
iteration-2 reviewer run fails (exit 1). -/
def c2EnvCounter : DagEnv :=
  { agent := fun k => if k = 0 then rOk "REVISION_NEEDED" else if k = 1 then rOk "v2" else rFail
    approval := fun _ => (true, none)
    hasApprovalHandler := false }

/-- **C2 counterexample** — with `maxIterations = 2`, a reviewer failure at
iteration 2 exits the cycle with the node `completed` while `reviewHistory`
has length 1 and its final entry is `approved = false`: the claimed
`length = maxIterations` does not hold on this normally-returning run. -/
theorem runReviewCycle_reviewer_failure_short_history :
    (runReviewCycle c2EnvCounter c2Node ⟨[], 0, 0⟩).1.status = DagStatus.completed ∧
    (runReviewCycle c2EnvCounter c2Node ⟨[], 0, 0⟩).1.reviewHistory.length = 1 ∧
    (runReviewCycle c2EnvCounter c2Node ⟨[], 0, 0⟩).1.reviewHistory.getLast?.map
        ReviewEntry.approved = some false ∧
    nodeMaxIter c2Node = 2 ∧ (1 : Nat) ≠ 2 :=
  ⟨rfl, rfl, rfl, rfl, by omega⟩

/-- Reviewer rejects at iteration 1, the revision succeeds, the iteration-2
reviewer approves. -/
def c2EnvWitness : DagEnv :=
  { agent := fun k =>
      if k = 0 then rOk "REVISION_NEEDED" else if k = 1 then rOk "v2" else rOk "APPROVED"
    approval := fun _ => (true, none)
    hasApprovalHandler := false }

/-- Witness for `runReviewCycle_decided_bounds` at a concrete two-iteration
run that ends with an approval. -/
theorem runReviewCycle_decided_bounds_witness :
    (runReviewCycle c2EnvWitness c2Node ⟨[], 0, 0⟩).1.status = DagStatus.completed ∧
    (runReviewCycle c2EnvWitness c2Node ⟨[], 0, 0⟩).1.reviewHistory.length ≤ nodeMaxIter c2Node ∧
    ((runReviewCycle c2EnvWitness c2Node ⟨[], 0, 0⟩).1.reviewHistory.getLast?.map
        ReviewEntry.approved = some false →
      (runReviewCycle c2EnvWitness c2Node ⟨[], 0, 0⟩).1.reviewHistory.length
        = nodeMaxIter c2Node) :=
  runReviewCycle_decided_bounds c2EnvWitness c2Node ⟨[], 0, 0⟩ rfl rfl rfl

/-! ### Node-map toolkit (C1) -/

/-- Characterization of a lookup after an in-place node update, provided the
update preserves the id of the nodes it touches. -/
theorem lookupNode_setNode (nodes : List DagNode) (id : String) (f : DagNode → DagNode)
    (hid : ∀ m ∈ nodes, m.task.id = id → (f m).task.id = m.task.id) (id' : String) :
    lookupNode (setNode nodes id f) id' =
      (lookupNode nodes id').map (fun n => if n.task.id = id then f n else n) := by
  induction nodes with
  | nil => rfl
  | cons m rest ih =>
    have hmid : (if m.task.id = id then f m else m).task.id = m.task.id := by
      by_cases hm : m.task.id = id
      · rw [if_pos hm]
        exact hid m (List.mem_cons_self m rest) hm
      · rw [if_neg hm]
    by_cases hm' : m.task.id = id'
    · have h1 : lookupNode (setNode (m :: rest) id f) id' =
          some (if m.task.id = id then f m else m) := by
        simp only [setNode, List.map_cons, lookupNode]
        exact List.find?_cons_of_pos _ (by simp only [decide_eq_true_eq]; rw [hmid]; exact hm')
      have h2 : lookupNode (m :: rest) id' = some m := by
        simp only [lookupNode]
        exact List.find?_cons_of_pos _ (by simp only [decide_eq_true_eq]; exact hm')
      rw [h1, h2]
      rfl
    · have h1 : lookupNode (setNode (m :: rest) id f) id' =
          lookupNode (setNode rest id f) id' := by
        simp only [setNode, List.map_cons, lookupNode]
        exact List.find?_cons_of_neg _ (by simp only [decide_eq_true_eq]; rw [hmid]; exact hm')
      have h2 : lookupNode (m :: rest) id' = lookupNode rest id' := by
        simp only [lookupNode]
        exact List.find?_cons_of_neg _ (by simp only [decide_eq_true_eq]; exact hm')
      rw [h1, h2, ih (fun x hx => hid x (List.mem_cons_of_mem m hx))]

theorem mem_setNode {nodes : List DagNode} {id : String} {f : DagNode → DagNode}
    {m' : DagNode} :
    m' ∈ setNode nodes id f ↔
      ∃ m ∈ nodes, m' = if m.task.id = id then f m else m := by
  simp only [setNode, List.mem_map]
  constructor
  · rintro ⟨m, hm, rfl⟩; exact ⟨m, hm, rfl⟩
  · rintro ⟨m, hm, rfl⟩; exact ⟨m, hm, rfl⟩

theorem setNode_map_taskId (nodes : List DagNode) (id : String) (f : DagNode → DagNode)
    (hid : ∀ m ∈ nodes, m.task.id = id → (f m).task.id = m.task.id) :
    (setNode nodes id f).map (fun n => n.task.id) = nodes.map (fun n => n.task.id) := by
  induction nodes with
  | nil => rfl
  | cons m rest ih =>
    have hmid : (if m.task.id = id then f m else m).task.id = m.task.id := by
      by_cases hm : m.task.id = id
      · rw [if_pos hm]
        exact hid m (List.mem_cons_self m rest) hm
      · rw [if_neg hm]
    simp only [setNode, List.map_cons] at ih ⊢
    rw [hmid, ih (fun x hx => hid x (List.mem_cons_of_mem m hx))]

/-- The node ids are unique (guaranteed by `buildDag`'s duplicate check). -/
def UniqIds (nodes : List DagNode) : Prop :=
  (nodes.map (fun n => n.task.id)).Nodup

theorem uniq_setNode {nodes : List DagNode} {id : String} {f : DagNode → DagNode}
    (hid : ∀ m ∈ nodes, m.task.id = id → (f m).task.id = m.task.id)
    (h : UniqIds nodes) : UniqIds (setNode nodes id f) := by
  unfold UniqIds
  rw [setNode_map_taskId nodes id f hid]
  exact h

theorem uniq_lookup_eq {nodes : List DagNode} (h : UniqIds nodes) {m m' : DagNode}
    (hm : m ∈ nodes) (hm' : m' ∈ nodes) (hid : m.task.id = m'.task.id) : m = m' :=
  List.inj_on_of_nodup_map h hm hm' hid

theorem lookup_mem {nodes : List DagNode} {id : String} {n : DagNode}
    (h : lookupNode nodes id = some n) : n ∈ nodes :=
  List.mem_of_find?_eq_some h

theorem lookup_id {nodes : List DagNode} {id : String} {n : DagNode}
    (h : lookupNode nodes id = some n) : n.task.id = id := by
  have := List.find?_some h
  simpa using this

theorem lookup_of_mem_uniq {nodes : List DagNode} (h : UniqIds nodes) {m : DagNode}
    (hm : m ∈ nodes) : lookupNode nodes m.task.id = some m := by
  cases hfind : lookupNode nodes m.task.id with
  | none =>
    exfalso
    have := List.find?_eq_none.mp hfind m hm
    simp at this
  | some n =>
    have h1 := lookup_mem hfind
    have h2 := lookup_id hfind
    rw [uniq_lookup_eq h hm h1 h2.symm]

/-- All direct dependencies are completed. -/
def depsCompleted (nodes : List DagNode) (n : DagNode) : Prop :=
  ∀ d ∈ n.dependsOn, statusOf nodes d = some DagStatus.completed

/-- The run invariant: any node that has left the `pending`/`blocked` states
has all its direct dependencies completed. -/
def Inv (nodes : List DagNode) : Prop :=
  ∀ n ∈ nodes, n.status ≠ DagStatus.pending → n.status ≠ DagStatus.blocked →
    depsCompleted nodes n

/-- Preservation of the invariant by a single in-place node update. -/
theorem Inv_setNode (nodes : List DagNode) (id : String) (f : DagNode → DagNode)
    (hid : ∀ m ∈ nodes, m.task.id = id → (f m).task.id = m.task.id)
    (hdeps : ∀ m ∈ nodes, m.task.id = id → (f m).dependsOn = m.dependsOn)
    (hInv : Inv nodes)
    (hcomp : ∀ m ∈ nodes, m.task.id = id → m.status = DagStatus.completed →
      (f m).status = DagStatus.completed)
    (hok : ∀ m ∈ nodes, m.task.id = id →
      (f m).status = DagStatus.pending ∨ (f m).status = DagStatus.blocked ∨
      depsCompleted nodes m) :
    Inv (setNode nodes id f) := by
  have hstat : ∀ d, statusOf nodes d = some DagStatus.completed →
      statusOf (setNode nodes id f) d = some DagStatus.completed := by
    intro d hd
    unfold statusOf at hd ⊢
    rw [lookupNode_setNode nodes id f hid d]
    cases hfind : lookupNode nodes d with
    | none =>
      rw [hfind] at hd
      exact absurd hd (by simp)
    | some nd =>
      rw [hfind] at hd
      have hd' : nd.status = DagStatus.completed := by
        have h0 : some nd.status = some DagStatus.completed := hd
        injection h0
      show some ((if nd.task.id = id then f nd else nd).status) = some DagStatus.completed
      by_cases hnd : nd.task.id = id
      · rw [if_pos hnd, hcomp nd (lookup_mem hfind) hnd hd']
      · rw [if_neg hnd, hd']
  intro n' hn' hs1 hs2
  obtain ⟨m, hm, hgm⟩ := mem_setNode.mp hn'
  by_cases hmid : m.task.id = id
  · rw [if_pos hmid] at hgm
    subst hgm
    rcases hok m hm hmid with h | h | hdc
    · exact absurd h hs1
    · exact absurd h hs2
    · intro d hd
      rw [hdeps m hm hmid] at hd
      exact hstat d (hdc d hd)
  · rw [if_neg hmid] at hgm
    subst hgm
    intro d hd
    exact hstat d (hInv _ hm hs1 hs2 d hd)

/-- A status-preserving update keeps the invariant. -/
theorem Inv_setNode_statusKeep (nodes : List DagNode) (id : String)
    (f : DagNode → DagNode)
    (hid : ∀ m ∈ nodes, m.task.id = id → (f m).task.id = m.task.id)
    (hdeps : ∀ m ∈ nodes, m.task.id = id → (f m).dependsOn = m.dependsOn)
    (hstat : ∀ m ∈ nodes, m.task.id = id → (f m).status = m.status)
    (hInv : Inv nodes) : Inv (setNode nodes id f) := by
  apply Inv_setNode nodes id f hid hdeps hInv
  · intro m hm hmi hc
    rw [hstat m hm hmi, hc]
  · intro m hm hmi
    rw [hstat m hm hmi]
    by_cases h1 : m.status = DagStatus.pending
    · exact Or.inl h1
    · by_cases h2 : m.status = DagStatus.blocked
      · exact Or.inr (Or.inl h2)
      · exact Or.inr (Or.inr (hInv m hm h1 h2))

/-- The effect of one `updateReadyState` pass on a single node, computed from
the pre-pass statuses. -/
def ursChar (nodes : List DagNode) (n : DagNode) : DagNode :=
  if n.status = DagStatus.pending then
    if n.dependsOn.any (fun d => statusOf nodes d == some DagStatus.failed) then
      { n with status := DagStatus.blocked }
    else if n.dependsOn.all (fun d => statusOf nodes d == some DagStatus.completed) then
      { n with status := DagStatus.ready }
    else n
  else n

theorem ursChar_status_cases (nodes : List DagNode) (n : DagNode) :
    (ursChar nodes n).status = n.status ∨
    (n.status = DagStatus.pending ∧
      ((ursChar nodes n).status = DagStatus.blocked ∨
       (ursChar nodes n).status = DagStatus.ready)) := by
  unfold ursChar
  split_ifs with h1 h2 h3
  · exact Or.inr ⟨h1, Or.inl rfl⟩
  · exact Or.inr ⟨h1, Or.inr rfl⟩
  · exact Or.inl rfl
  · exact Or.inl rfl

/-- After-pass statuses agree with pre-pass statuses on `failed` and
`completed` (the pass only moves `pending` nodes to `blocked`/`ready`). -/
def StatusAgree (nodes cur : List DagNode) : Prop :=
  ∀ d, (statusOf cur d = some DagStatus.failed ↔
          statusOf nodes d = some DagStatus.failed) ∧
       (statusOf cur d = some DagStatus.completed ↔
          statusOf nodes d = some DagStatus.completed)

theorem statusAgree_of_disj {nodes cur : List DagNode}
    (hdisj : ∀ i, lookupNode cur i = lookupNode nodes i ∨
      lookupNode cur i = (lookupNode nodes i).map (ursChar nodes)) :
    StatusAgree nodes cur := by
  intro d
  rcases hdisj d with h | h
  · unfold statusOf
    rw [h]
    exact ⟨Iff.rfl, Iff.rfl⟩
  · unfold statusOf
    rw [h]
    cases hfind : lookupNode nodes d with
    | none => exact ⟨Iff.rfl, Iff.rfl⟩
    | some nd =>
      show ((some ((ursChar nodes nd).status) = some DagStatus.failed ↔
             some nd.status = some DagStatus.failed) ∧
            (some ((ursChar nodes nd).status) = some DagStatus.completed ↔
             some nd.status = some DagStatus.completed))
      rcases ursChar_status_cases nodes nd with hsame | ⟨hpend, hch⟩
      · rw [hsame]
        exact ⟨Iff.rfl, Iff.rfl⟩
      · rw [hpend]
        rcases hch with hch | hch <;> rw [hch] <;> simp
      
theorem any_failed_congr {nodes cur : List DagNode} (hsa : StatusAgree nodes cur)
    (deps : List String) :
    (deps.any fun d => statusOf cur d == some DagStatus.failed) =
    (deps.any fun d => statusOf nodes d == some DagStatus.failed) := by
  induction deps with
  | nil => rfl
  | cons d ds ih =>
    simp only [List.any_cons, ih]
    have : (statusOf cur d == some DagStatus.failed) =
        (statusOf nodes d == some DagStatus.failed) := by
      rw [Bool.eq_iff_iff]
      simp only [beq_iff_eq]
      exact (hsa d).1
    rw [this]

theorem all_completed_congr {nodes cur : List DagNode} (hsa : StatusAgree nodes cur)
    (deps : List String) :
    (deps.all fun d => statusOf cur d == some DagStatus.completed) =
    (deps.all fun d => statusOf nodes d == some DagStatus.completed) := by
  induction deps with
  | nil => rfl
  | cons d ds ih =>
    simp only [List.all_cons, ih]
    have : (statusOf cur d == some DagStatus.completed) =
        (statusOf nodes d == some DagStatus.completed) := by
      rw [Bool.eq_iff_iff]
      simp only [beq_iff_eq]
      exact (hsa d).2
    rw [this]

theorem lookup_setNode_self (nodes : List DagNode) (id : String) (f : DagNode → DagNode)
    (hid : ∀ m ∈ nodes, m.task.id = id → (f m).task.id = m.task.id) :
    lookupNode (setNode nodes id f) id = (lookupNode nodes id).map f := by
  rw [lookupNode_setNode nodes id f hid id]
  cases hfind : lookupNode nodes id with
  | none => rfl
  | some nd =>
    show some (if nd.task.id = id then f nd else nd) = some (f nd)
    rw [if_pos (lookup_id hfind)]

theorem lookup_setNode_ne (nodes : List DagNode) (id : String) (f : DagNode → DagNode)
    (hid : ∀ m ∈ nodes, m.task.id = id → (f m).task.id = m.task.id)
    (id' : String) (hne : id' ≠ id) :
    lookupNode (setNode nodes id f) id' = lookupNode nodes id' := by
  rw [lookupNode_setNode nodes id f hid id']
  cases hfind : lookupNode nodes id' with
  | none => rfl
  | some nd =>
    show some (if nd.task.id = id then f nd else nd) = some nd
    rw [if_neg (by rw [lookup_id hfind]; exact hne)]

theorem updateOne_lookup_ne (cur : List DagNode) (i id' : String) (hne : id' ≠ i) :
    lookupNode (updateOne cur i) id' = lookupNode cur id' := by
  simp only [updateOne]
  split
  · rfl
  · split_ifs
    · exact lookup_setNode_ne cur i
        (fun m => { m with status := DagStatus.blocked }) (fun m _ _ => rfl) id' hne
    · exact lookup_setNode_ne cur i
        (fun m => { m with status := DagStatus.ready }) (fun m _ _ => rfl) id' hne
    · rfl
    · rfl

theorem updateOne_map_taskId (cur : List DagNode) (i : String) :
    (updateOne cur i).map (fun n => n.task.id) = cur.map (fun n => n.task.id) := by
  simp only [updateOne]
  split
  · rfl
  · split_ifs
    · exact setNode_map_taskId cur i
        (fun m => { m with status := DagStatus.blocked }) (fun m _ _ => rfl)
    · exact setNode_map_taskId cur i
        (fun m => { m with status := DagStatus.ready }) (fun m _ _ => rfl)
    · rfl
    · rfl

theorem Inv_updateOne (cur : List DagNode) (i : String) (hu : UniqIds cur)
    (hInv : Inv cur) : Inv (updateOne cur i) := by
  simp only [updateOne]
  split
  · exact hInv
  · rename_i n hfind
    have hnmem := lookup_mem hfind
    have hnid := lookup_id hfind
    have hmeq : ∀ m ∈ cur, m.task.id = i → m = n := by
      intro m hm hmi
      exact uniq_lookup_eq hu hm hnmem (by rw [hmi, hnid])
    split_ifs with hp haf hac
    · apply Inv_setNode cur i (fun m => { m with status := DagStatus.blocked })
        (fun m _ _ => rfl) (fun m _ _ => rfl) hInv
      · intro m hm hmi hc
        rw [hmeq m hm hmi, hp] at hc
        cases hc
      · intro m hm hmi
        exact Or.inr (Or.inl rfl)
    · apply Inv_setNode cur i (fun m => { m with status := DagStatus.ready })
        (fun m _ _ => rfl) (fun m _ _ => rfl) hInv
      · intro m hm hmi hc
        rw [hmeq m hm hmi, hp] at hc
        cases hc
      · intro m hm hmi
        refine Or.inr (Or.inr ?_)
        rw [hmeq m hm hmi]
        intro d hd
        have := List.all_eq_true.mp hac d hd
        simpa using this
    · exact hInv
    · exact hInv

theorem uniq_updateOne (cur : List DagNode) (i : String) (hu : UniqIds cur) :
    UniqIds (updateOne cur i) := by
  unfold UniqIds
  rw [updateOne_map_taskId]
  exact hu

/-- Ids not in the remaining worklist keep their node across the pass fold. -/
theorem foldl_updateOne_lookup_not_mem (ids : List String) :
    ∀ (cur : List DagNode) (id' : String), id' ∉ ids →
      lookupNode (ids.foldl updateOne cur) id' = lookupNode cur id' := by
  induction ids with
  | nil => intro cur id' _; rfl
  | cons i is ih =>
    intro cur id' h
    simp only [List.foldl_cons]
    rw [ih _ id' (fun hm => h (List.mem_cons_of_mem i hm)),
      updateOne_lookup_ne cur i id' (fun he => h (he ▸ List.mem_cons_self i is))]

/-- When the worklist entry is a pending node with a failed direct
dependency, the pass step blocks it. -/
theorem updateOne_fires_blocked (cur : List DagNode) (i : String) (n : DagNode)
    (hfind : lookupNode cur i = some n) (hp : n.status = DagStatus.pending)
    (hany : n.dependsOn.any
      (fun d => statusOf cur d == some DagStatus.failed) = true) :
    updateOne cur i =
      setNode cur i (fun m => { m with status := DagStatus.blocked }) := by
  simp only [updateOne]
  split
  · rename_i hnone
    rw [hfind] at hnone
    cases hnone
  · rename_i n' hfind'
    rw [hfind] at hfind'
    injection hfind' with hn'
    subst hn'
    rw [if_pos hp, if_pos hany]

theorem statusAgree_refl (nodes : List DagNode) : StatusAgree nodes nodes :=
  fun _ => ⟨Iff.rfl, Iff.rfl⟩

/-- One pass step keeps the pre-pass `failed`/`completed` statuses (it only
moves `pending` nodes to `blocked`/`ready`). -/
theorem statusAgree_updateOne {nodes cur : List DagNode}
    (h : StatusAgree nodes cur) (i : String) :
    StatusAgree nodes (updateOne cur i) := by
  simp only [updateOne]
  split
  · exact h
  · rename_i n hfind
    have hstep : ∀ (g : DagNode → DagNode),
        (∀ m, (g m).task.id = m.task.id) →
        (g n).status ≠ DagStatus.failed → (g n).status ≠ DagStatus.completed →
        n.status = DagStatus.pending →
        StatusAgree nodes (setNode cur i g) := by
      intro g hgid hgf hgc hp d
      by_cases hd : d = i
      · subst hd
        have hself : lookupNode (setNode cur d g) d = some (g n) := by
          rw [lookup_setNode_self cur d g (fun m _ _ => hgid m), hfind]
          rfl
        have hcurd : statusOf cur d = some DagStatus.pending := by
          unfold statusOf
          rw [hfind]
          show some n.status = some DagStatus.pending
          rw [hp]
        constructor
        · constructor
          · intro hx
            unfold statusOf at hx
            rw [hself] at hx
            have : (g n).status = DagStatus.failed := by injection hx
            exact absurd this hgf
          · intro hx
            have := (h d).1.mpr hx
            rw [hcurd] at this
            cases this
        · constructor
          · intro hx
            unfold statusOf at hx
            rw [hself] at hx
            have : (g n).status = DagStatus.completed := by injection hx
            exact absurd this hgc
          · intro hx
            have := (h d).2.mpr hx
            rw [hcurd] at this
            cases this
      · have hne : statusOf (setNode cur i g) d = statusOf cur d := by
          unfold statusOf
          rw [lookup_setNode_ne cur i g (fun m _ _ => hgid m) d hd]
        rw [hne]
        exact h d
    split_ifs with hp haf hac
    · exact hstep (fun m => { m with status := DagStatus.blocked })
        (fun m => rfl) (by intro hx; cases hx) (by intro hx; cases hx) hp
    · exact hstep (fun m => { m with status := DagStatus.ready })
        (fun m => rfl) (by intro hx; cases hx) (by intro hx; cases hx) hp
    · exact h
    · exact h

theorem statusAgree_foldl (nodes : List DagNode) (ids : List String) :
    ∀ (cur : List DagNode), StatusAgree nodes cur →
      StatusAgree nodes (ids.foldl updateOne cur) := by
  induction ids with
  | nil => intro cur h; exact h
  | cons i is ih =>
    intro cur h
    exact ih _ (statusAgree_updateOne h i)

/-- A pending node with a `failed` direct dependency is `blocked` by the
`updateReadyState` pass. -/
theorem updateReadyState_blocks (nodes : List DagNode) (hu : UniqIds nodes)
    {n : DagNode} (hn : n ∈ nodes) (hp : n.status = DagStatus.pending)
    {d : String} (hd : d ∈ n.dependsOn)
    (hf : statusOf nodes d = some DagStatus.failed) :
    statusOf (updateReadyState nodes) n.task.id = some DagStatus.blocked := by
  have hmem : n.task.id ∈ nodes.map (fun m => m.task.id) :=
    List.mem_map_of_mem _ hn
  obtain ⟨s, t, hst⟩ := List.append_of_mem hmem
  have hnodup : (nodes.map (fun m => m.task.id)).Nodup := hu
  rw [hst] at hnodup
  obtain ⟨hs, hct, hdisj⟩ := List.nodup_append.mp hnodup
  have hnotin_t : n.task.id ∉ t := (List.nodup_cons.mp hct).1
  have hnotin_s : n.task.id ∉ s := by
    intro hmem_s
    exact hdisj hmem_s (List.mem_cons_self _ _)
  unfold updateReadyState
  rw [hst, List.foldl_append, List.foldl_cons]
  have hl1 : lookupNode (s.foldl updateOne nodes) n.task.id = some n := by
    rw [foldl_updateOne_lookup_not_mem s nodes _ hnotin_s]
    exact lookup_of_mem_uniq hu hn
  have hsa : StatusAgree nodes (s.foldl updateOne nodes) :=
    statusAgree_foldl nodes s nodes (statusAgree_refl nodes)
  have hany : n.dependsOn.any
      (fun d => statusOf (s.foldl updateOne nodes) d == some DagStatus.failed)
        = true := by
    apply List.any_eq_true.mpr
    refine ⟨d, hd, ?_⟩
    rw [beq_iff_eq]
    exact (hsa d).1.mpr hf
  rw [updateOne_fires_blocked _ _ n hl1 hp hany]
  unfold statusOf
  rw [foldl_updateOne_lookup_not_mem t _ _ hnotin_t,
    lookup_setNode_self (s.foldl updateOne nodes) n.task.id
      (fun m => { m with status := DagStatus.blocked }) (fun m _ _ => rfl), hl1]
  rfl

theorem uniqInv_foldl_updateOne (ids : List String) :
    ∀ (cur : List DagNode), UniqIds cur → Inv cur →
      UniqIds (ids.foldl updateOne cur) ∧ Inv (ids.foldl updateOne cur) := by
  induction ids with
  | nil => intro cur hu hInv; exact ⟨hu, hInv⟩
  | cons i is ih =>
    intro cur hu hInv
    exact ih _ (uniq_updateOne cur i hu) (Inv_updateOne cur i hu hInv)

theorem uniq_updateReadyState (nodes : List DagNode) (hu : UniqIds nodes)
    (hInv : Inv nodes) : UniqIds (updateReadyState nodes) :=
  (uniqInv_foldl_updateOne _ nodes hu hInv).1

theorem Inv_updateReadyState (nodes : List DagNode) (hu : UniqIds nodes)
    (hInv : Inv nodes) : Inv (updateReadyState nodes) :=
  (uniqInv_foldl_updateOne _ nodes hu hInv).2

/-- The review loop never changes the node's task or dependency list. -/
theorem reviewLoop_task_deps (env : DagEnv) (maxIter : Nat) :
    ∀ (fuel : Nat) (n : DagNode) (ctx : RunCtx),
      (reviewLoop env maxIter fuel n ctx).1.task = n.task ∧
      (reviewLoop env maxIter fuel n ctx).1.dependsOn = n.dependsOn := by
  intro fuel
  induction fuel with
  | zero => intro n ctx; exact ⟨rfl, rfl⟩
  | succ fuel ih =>
    intro n ctx
    rw [reviewLoop]
    by_cases hit : n.iteration ≤ maxIter
    · rw [if_pos hit]
      by_cases hsig : sigFired env ctx.sigK = true
      · rw [if_pos hsig]
        exact ⟨rfl, rfl⟩
      · rw [if_neg hsig]
        simp only
        by_cases hrf : (env.agent ctx.agentK).exitCode ≠ 0 ∨
            (env.agent ctx.agentK).aborted = true
        · rw [if_pos hrf]
          exact ⟨rfl, rfl⟩
        · rw [if_neg hrf]
          by_cases hdec : (parseReviewDecision (env.agent ctx.agentK).output).1 = true ∨
              maxIter ≤ n.iteration
          · rw [if_pos hdec]
            exact ⟨rfl, rfl⟩
          · rw [if_neg hdec]
            by_cases hrev : (env.agent (ctx.agentK + 1)).exitCode ≠ 0 ∨
                (env.agent (ctx.agentK + 1)).aborted = true
            · rw [if_pos hrev]
              exact ⟨rfl, rfl⟩
            · rw [if_neg hrev]
              exact ih _ _
    · rw [if_neg hit]
      exact ⟨rfl, rfl⟩

/-- The review cycle never changes the node's task or dependency list. -/
theorem runReviewCycle_task_deps (env : DagEnv) (node : DagNode) (ctx : RunCtx) :
    (runReviewCycle env node ctx).1.task = node.task ∧
    (runReviewCycle env node ctx).1.dependsOn = node.dependsOn := by
  unfold runReviewCycle
  by_cases h0 : node.iteration = 0
  · rw [if_pos h0]
    exact reviewLoop_task_deps env _ _ _ _
  · rw [if_neg h0]
    exact reviewLoop_task_deps env _ _ _ _

/-- Bundle for a status-preserving in-place update on a `running` node. -/
theorem setNode_statusKeep_pack (nodes : List DagNode) (id : String)
    (f : DagNode → DagNode)
    (hid : ∀ m ∈ nodes, m.task.id = id → (f m).task.id = m.task.id)
    (hdeps : ∀ m ∈ nodes, m.task.id = id → (f m).dependsOn = m.dependsOn)
    (hstat : ∀ m ∈ nodes, m.task.id = id → (f m).status = m.status)
    (hu : UniqIds nodes) (hInv : Inv nodes)
    (hrun : ∀ m ∈ nodes, m.task.id = id → m.status = DagStatus.running) :
    UniqIds (setNode nodes id f) ∧ Inv (setNode nodes id f) ∧
      (∀ m ∈ setNode nodes id f, m.task.id = id → m.status = DagStatus.running) ∧
      ∀ id', id' ≠ id → lookupNode (setNode nodes id f) id' = lookupNode nodes id' := by
  refine ⟨uniq_setNode hid hu, Inv_setNode_statusKeep nodes id f hid hdeps hstat hInv,
    ?_, fun id' hne => lookup_setNode_ne nodes id f hid id' hne⟩
  intro m hm hmi
  obtain ⟨m₀, hm₀, hgm⟩ := mem_setNode.mp hm
  by_cases hg : m₀.task.id = id
  · rw [if_pos hg] at hgm
    subst hgm
    rw [hstat m₀ hm₀ hg]
    exact hrun m₀ hm₀ hg
  · rw [if_neg hg] at hgm
    subst hgm
    exact absurd hmi hg

/-- Bundle for an in-place update that may move a node out of a
non-`pending`/`blocked`/`completed` status. -/
theorem setNode_terminal_pack (nodes : List DagNode) (id : String)
    (f : DagNode → DagNode)
    (hid : ∀ m ∈ nodes, m.task.id = id → (f m).task.id = m.task.id)
    (hdeps : ∀ m ∈ nodes, m.task.id = id → (f m).dependsOn = m.dependsOn)
    (hu : UniqIds nodes) (hInv : Inv nodes)
    (hnotpb : ∀ m ∈ nodes, m.task.id = id →
      m.status ≠ DagStatus.pending ∧ m.status ≠ DagStatus.blocked ∧
      m.status ≠ DagStatus.completed) :
    UniqIds (setNode nodes id f) ∧ Inv (setNode nodes id f) ∧
      ∀ id', id' ≠ id → lookupNode (setNode nodes id f) id' = lookupNode nodes id' := by
  refine ⟨uniq_setNode hid hu, ?_,
    fun id' hne => lookup_setNode_ne nodes id f hid id' hne⟩
  apply Inv_setNode nodes id f hid hdeps hInv
  · intro m hm hmi hc
    exact absurd hc (hnotpb m hm hmi).2.2
  · intro m hm hmi
    exact Or.inr (Or.inr (hInv m hm (hnotpb m hm hmi).1 (hnotpb m hm hmi).2.1))

/-- `processOne` on a currently `running` node preserves id-uniqueness and
the run invariant, and leaves every other node untouched. -/
theorem processOne_preserves (env : DagEnv) (st : DagSt) (pr : String × TaskResult)
    (hu : UniqIds st.nodes) (hInv : Inv st.nodes)
    (hrun : ∀ m ∈ st.nodes, m.task.id = pr.1 → m.status = DagStatus.running) :
    UniqIds (processOne env st pr).nodes ∧ Inv (processOne env st pr).nodes ∧
      ∀ id', id' ≠ pr.1 →
        lookupNode (processOne env st pr).nodes id' = lookupNode st.nodes id' := by
  obtain ⟨hu1, hInv1, hrun1, hlk1⟩ := setNode_statusKeep_pack st.nodes pr.1
    (fun m => { m with result := some pr.2 })
    (fun m _ _ => rfl) (fun m _ _ => rfl) (fun m _ _ => rfl) hu hInv hrun
  have hnot1 : ∀ m ∈ setNode st.nodes pr.1 (fun m => { m with result := some pr.2 }),
      m.task.id = pr.1 →
      m.status ≠ DagStatus.pending ∧ m.status ≠ DagStatus.blocked ∧
      m.status ≠ DagStatus.completed := by
    intro m hm hmi
    rw [hrun1 m hm hmi]
    decide
  simp only [processOne]
  split
  · exact ⟨hu1, hInv1, hlk1⟩
  · rename_i n hfind
    split_ifs with hfail happ hrev
    · obtain ⟨hA, hB, hC⟩ := setNode_terminal_pack _ pr.1
        (fun m => { m with status := DagStatus.failed })
        (fun m _ _ => rfl) (fun m _ _ => rfl) hu1 hInv1 hnot1
      exact ⟨hA, hB, fun id' hne => by rw [hC id' hne, hlk1 id' hne]⟩
    · obtain ⟨hA, hB, hC⟩ := setNode_terminal_pack _ pr.1
        (fun m => { m with status := DagStatus.awaiting_approval })
        (fun m _ _ => rfl) (fun m _ _ => rfl) hu1 hInv1 hnot1
      exact ⟨hA, hB, fun id' hne => by rw [hC id' hne, hlk1 id' hne]⟩
    · obtain ⟨hu2, hInv2, hrun2, hlk2⟩ := setNode_statusKeep_pack _ pr.1
        (fun m => { m with iteration := 1, reviewHistory := [],
                           iterationResults := [pr.2] })
        (fun m _ _ => rfl) (fun m _ _ => rfl) (fun m _ _ => rfl) hu1 hInv1 hrun1
      split
      · exact ⟨hu2, hInv2, fun id' hne => by rw [hlk2 id' hne, hlk1 id' hne]⟩
      · rename_i n2 hfind2
        have hn2mem := lookup_mem hfind2
        have hn2id := lookup_id hfind2
        have hnot2 : ∀ m ∈ setNode
            (setNode st.nodes pr.1 (fun m => { m with result := some pr.2 })) pr.1
            (fun m => { m with iteration := 1, reviewHistory := [],
                               iterationResults := [pr.2] }),
            m.task.id = pr.1 →
            m.status ≠ DagStatus.pending ∧ m.status ≠ DagStatus.blocked ∧
            m.status ≠ DagStatus.completed := by
          intro m hm hmi
          rw [hrun2 m hm hmi]
          decide
        obtain ⟨hA, hB, hC⟩ := setNode_terminal_pack _ pr.1
          (fun _ => (runReviewCycle env n2
            { results := st.results ++ [pr.2], agentK := st.agentK,
              sigK := st.sigK }).1)
          (fun m hm hmi => by
            rw [(runReviewCycle_task_deps env n2 _).1,
              uniq_lookup_eq hu2 hm hn2mem (by rw [hmi, hn2id])])
          (fun m hm hmi => by
            rw [(runReviewCycle_task_deps env n2 _).2,
              uniq_lookup_eq hu2 hm hn2mem (by rw [hmi, hn2id])])
          hu2 hInv2 hnot2
        exact ⟨hA, hB, fun id' hne => by rw [hC id' hne, hlk2 id' hne, hlk1 id' hne]⟩
    · obtain ⟨hA, hB, hC⟩ := setNode_terminal_pack _ pr.1
        (fun m => { m with status := DagStatus.completed })
        (fun m _ _ => rfl) (fun m _ _ => rfl) hu1 hInv1 hnot1
      exact ⟨hA, hB, fun id' hne => by rw [hC id' hne, hlk1 id' hne]⟩

/-- Marking a worklist of currently-`ready` nodes as `running` preserves
id-uniqueness and the invariant; marked ids end `running`, others untouched. -/
theorem markRunning_fold (ids : List String) :
    ∀ (ns : List DagNode), UniqIds ns → Inv ns →
      (∀ i ∈ ids, statusOf ns i = some DagStatus.ready) → ids.Nodup →
      UniqIds (ids.foldl (fun a i => setNode a i
          (fun m => { m with status := DagStatus.running })) ns) ∧
      Inv (ids.foldl (fun a i => setNode a i
          (fun m => { m with status := DagStatus.running })) ns) ∧
      (∀ i ∈ ids, statusOf (ids.foldl (fun a i => setNode a i
          (fun m => { m with status := DagStatus.running })) ns) i
            = some DagStatus.running) ∧
      (∀ id', id' ∉ ids → lookupNode (ids.foldl (fun a i => setNode a i
          (fun m => { m with status := DagStatus.running })) ns) id'
            = lookupNode ns id') := by
  induction ids with
  | nil =>
    intro ns hu hInv _ _
    exact ⟨hu, hInv, fun i hi => absurd hi (List.not_mem_nil i), fun id' _ => rfl⟩
  | cons i is ih =>
    intro ns hu hInv hready hnd
    have hnd' := List.nodup_cons.mp hnd
    have hrdy := hready i (List.mem_cons_self i is)
    rcases hfind : lookupNode ns i with - | n
    · exfalso
      unfold statusOf at hrdy
      rw [hfind] at hrdy
      cases hrdy
    · have hnst : n.status = DagStatus.ready := by
        unfold statusOf at hrdy
        rw [hfind] at hrdy
        have h2 : some n.status = some DagStatus.ready := hrdy
        injection h2
      have hnmem := lookup_mem hfind
      have hnid := lookup_id hfind
      have hu1 : UniqIds (setNode ns i
          (fun m => { m with status := DagStatus.running })) :=
        uniq_setNode (fun m _ _ => rfl) hu
      have hInv1 : Inv (setNode ns i
          (fun m => { m with status := DagStatus.running })) := by
        apply Inv_setNode ns i (fun m => { m with status := DagStatus.running })
          (fun m _ _ => rfl) (fun m _ _ => rfl) hInv
        · intro m hm hmi hc
          rw [uniq_lookup_eq hu hm hnmem (by rw [hmi, hnid]), hnst] at hc
          cases hc
        · intro m hm hmi
          refine Or.inr (Or.inr (hInv m hm ?_ ?_)) <;>
            rw [uniq_lookup_eq hu hm hnmem (by rw [hmi, hnid]), hnst] <;>
            decide
      have hready1 : ∀ j ∈ is, statusOf (setNode ns i
          (fun m => { m with status := DagStatus.running })) j
            = some DagStatus.ready := by
        intro j hj
        have hjne : j ≠ i := fun he => hnd'.1 (he ▸ hj)
        unfold statusOf
        rw [lookup_setNode_ne ns i
          (fun m => { m with status := DagStatus.running }) (fun m _ _ => rfl) j hjne]
        exact hready j (List.mem_cons_of_mem i hj)
      obtain ⟨hu', hInv', hrun', hlk'⟩ := ih _ hu1 hInv1 hready1 hnd'.2
      simp only [List.foldl_cons]
      refine ⟨hu', hInv', ?_, ?_⟩
      · intro j hj
        rcases List.mem_cons.mp hj with hj | hj
        · subst hj
          unfold statusOf
          rw [hlk' j hnd'.1,
            lookup_setNode_self ns j (fun m => { m with status := DagStatus.running })
              (fun m _ _ => rfl), hfind]
          rfl
        · exact hrun' j hj
      · intro id' hid'
        have h1 : id' ∉ is := fun hm => hid' (List.mem_cons_of_mem i hm)
        have h2 : id' ≠ i := fun he => hid' (he ▸ List.mem_cons_self i is)
        rw [hlk' id' h1, lookup_setNode_ne ns i
          (fun m => { m with status := DagStatus.running }) (fun m _ _ => rfl) id' h2]

/-- Folding `processOne` over a batch of distinct, currently-`running` ids
preserves id-uniqueness and the run invariant. -/
theorem processFold_preserves (env : DagEnv) (pairs : List (String × TaskResult)) :
    ∀ (st : DagSt), UniqIds st.nodes → Inv st.nodes →
      (∀ i ∈ pairs.map Prod.fst, statusOf st.nodes i = some DagStatus.running) →
      (pairs.map Prod.fst).Nodup →
      UniqIds (pairs.foldl (processOne env) st).nodes ∧
      Inv (pairs.foldl (processOne env) st).nodes := by
  induction pairs with
  | nil => intro st hu hInv _ _; exact ⟨hu, hInv⟩
  | cons pr rest ih =>
    intro st hu hInv hrun hnd
    rw [List.map_cons] at hrun hnd
    have hnd' := List.nodup_cons.mp hnd
    have hrunhd : ∀ m ∈ st.nodes, m.task.id = pr.1 → m.status = DagStatus.running := by
      intro m hm hmi
      have hl := lookup_of_mem_uniq hu hm
      rw [hmi] at hl
      have hs := hrun pr.1 (List.mem_cons_self _ _)
      unfold statusOf at hs
      rw [hl] at hs
      have h2 : some m.status = some DagStatus.running := hs
      injection h2
    obtain ⟨hu', hInv', hlk'⟩ := processOne_preserves env st pr hu hInv hrunhd
    simp only [List.foldl_cons]
    apply ih (processOne env st pr) hu' hInv' _ hnd'.2
    intro j hj
    have hjne : j ≠ pr.1 := fun he => hnd'.1 (he ▸ hj)
    unfold statusOf
    rw [hlk' j hjne]
    exact hrun j (List.mem_cons_of_mem _ hj)

/-- Approving a pending-approval node (setting it `completed` and refreshing
ready states) preserves id-uniqueness and the invariant. -/
theorem approve_step_pack (nodes : List DagNode) (apn : DagNode)
    (hu : UniqIds nodes) (hInv : Inv nodes)
    (hga : getPendingApproval nodes = some apn) :
    UniqIds (updateReadyState (setNode nodes apn.task.id
      (fun m => { m with status := DagStatus.completed }))) ∧
    Inv (updateReadyState (setNode nodes apn.task.id
      (fun m => { m with status := DagStatus.completed }))) := by
  have hmem : apn ∈ nodes := List.mem_of_find?_eq_some hga
  have hstat : apn.status = DagStatus.awaiting_approval := by
    have := List.find?_some hga
    simpa using this
  have hu1 : UniqIds (setNode nodes apn.task.id
      (fun m => { m with status := DagStatus.completed })) :=
    uniq_setNode (fun m _ _ => rfl) hu
  have hInv1 : Inv (setNode nodes apn.task.id
      (fun m => { m with status := DagStatus.completed })) := by
    apply Inv_setNode nodes apn.task.id
      (fun m => { m with status := DagStatus.completed })
      (fun m _ _ => rfl) (fun m _ _ => rfl) hInv
    · intro m _ _ _
      rfl
    · intro m hm hmi
      refine Or.inr (Or.inr (hInv m hm ?_ ?_)) <;>
        rw [uniq_lookup_eq hu hm hmem hmi, hstat] <;> decide
  exact ⟨uniq_updateReadyState _ hu1 hInv1, Inv_updateReadyState _ hu1 hInv1⟩

/-- Rejecting a pending-approval node (feedback amended, set back to `ready`)
preserves id-uniqueness and the invariant. -/
theorem reject_step_pack (nodes : List DagNode) (apn : DagNode) (fb : Option String)
    (hu : UniqIds nodes) (hInv : Inv nodes)
    (hga : getPendingApproval nodes = some apn) :
    UniqIds (setNode nodes apn.task.id (fun m =>
      { m with status := DagStatus.ready, task := amendRejected m.task fb })) ∧
    Inv (setNode nodes apn.task.id (fun m =>
      { m with status := DagStatus.ready, task := amendRejected m.task fb })) := by
  have hmem : apn ∈ nodes := List.mem_of_find?_eq_some hga
  have hstat : apn.status = DagStatus.awaiting_approval := by
    have := List.find?_some hga
    simpa using this
  have hid : ∀ m ∈ nodes, m.task.id = apn.task.id →
      (amendRejected m.task fb).id = m.task.id := by
    intro m _ _
    cases fb <;> rfl
  refine ⟨uniq_setNode hid hu, ?_⟩
  apply Inv_setNode nodes apn.task.id (fun m =>
    { m with status := DagStatus.ready, task := amendRejected m.task fb })
    hid (fun m _ _ => rfl) hInv
  · intro m hm hmi hc
    rw [uniq_lookup_eq hu hm hmem hmi, hstat] at hc
    cases hc
  · intro m hm hmi
    refine Or.inr (Or.inr (hInv m hm ?_ ?_)) <;>
      rw [uniq_lookup_eq hu hm hmem hmi, hstat] <;> decide

/-- One batch step of the scheduler — mark the ready batch `running`, process
each result, refresh ready states — preserves id-uniqueness and the
invariant. -/
theorem batch_state_pack (env : DagEnv) (mc : Nat) (st2 : DagSt)
    (hu : UniqIds st2.nodes) (hInv : Inv st2.nodes) :
    UniqIds (updateReadyState (((((getReadyTasks st2.nodes).take mc).map
        (fun n => n.task.id)).enum.map
        (fun p => (p.2, env.agent (st2.agentK + p.1)))).foldl (processOne env)
        { st2 with
          nodes := ((((getReadyTasks st2.nodes).take mc).map
            (fun n => n.task.id)).foldl
            (fun ns i => setNode ns i
              (fun m => { m with status := DagStatus.running })) st2.nodes)
          agentK := st2.agentK + (((getReadyTasks st2.nodes).take mc).map
            (fun n => n.task.id)).length }).nodes) ∧
    Inv (updateReadyState (((((getReadyTasks st2.nodes).take mc).map
        (fun n => n.task.id)).enum.map
        (fun p => (p.2, env.agent (st2.agentK + p.1)))).foldl (processOne env)
        { st2 with
          nodes := ((((getReadyTasks st2.nodes).take mc).map
            (fun n => n.task.id)).foldl
            (fun ns i => setNode ns i
              (fun m => { m with status := DagStatus.running })) st2.nodes)
          agentK := st2.agentK + (((getReadyTasks st2.nodes).take mc).map
            (fun n => n.task.id)).length }).nodes) := by
  set ids := (((getReadyTasks st2.nodes).take mc).map (fun n => n.task.id))
    with hids
  have hsub : List.Sublist ids (st2.nodes.map (fun n => n.task.id)) :=
    List.Sublist.map _ ((List.take_sublist mc _).trans (List.filter_sublist _))
  have hnd : ids.Nodup := List.Nodup.sublist hsub hu
  have hready : ∀ i ∈ ids, statusOf st2.nodes i = some DagStatus.ready := by
    intro i hi
    rw [hids] at hi
    obtain ⟨n, hn, rfl⟩ := List.mem_map.mp hi
    obtain ⟨hmemN, hstatN⟩ := List.mem_filter.mp (List.mem_of_mem_take hn)
    unfold statusOf
    rw [lookup_of_mem_uniq hu hmemN]
    show some n.status = some DagStatus.ready
    rw [beq_iff_eq.mp hstatN]
  obtain ⟨hmu, hmInv, hmrun, -⟩ := markRunning_fold ids st2.nodes hu hInv hready hnd
  have hpm : (ids.enum.map (fun p => (p.2, env.agent (st2.agentK + p.1)))).map
      Prod.fst = ids := by
    rw [List.map_map]
    exact List.enum_map_snd ids
  have pf := processFold_preserves env
    (ids.enum.map (fun p => (p.2, env.agent (st2.agentK + p.1))))
    { st2 with
      nodes := ids.foldl (fun ns i => setNode ns i
        (fun m => { m with status := DagStatus.running })) st2.nodes
      agentK := st2.agentK + ids.length }
    hmu hmInv
    (by
      intro i hi
      rw [hpm] at hi
      exact hmrun i hi)
    (by rw [hpm]; exact hnd)
  exact ⟨uniq_updateReadyState _ pf.1 pf.2, Inv_updateReadyState _ pf.1 pf.2⟩

/-- Every scheduler-loop boundary state of `execLoop` keeps ids unique and
satisfies the run invariant. -/
theorem execLoop_preserves (env : DagEnv) (mc : Nat) :
    ∀ (fuel : Nat) (st : DagSt), UniqIds st.nodes → Inv st.nodes →
      UniqIds (execLoop env mc fuel st).1.nodes ∧
      Inv (execLoop env mc fuel st).1.nodes := by
  intro fuel
  induction fuel with
  | zero => intro st hu hInv; exact ⟨hu, hInv⟩
  | succ fuel ih =>
    intro st hu hInv
    rw [execLoop]
    by_cases hc : isDagComplete st.nodes = true
    · rw [if_pos hc]
      exact ⟨hu, hInv⟩
    · rw [if_neg hc]
      by_cases hsig : sigFired env st.sigK = true
      · rw [if_pos hsig]
        exact ⟨hu, hInv⟩
      · rw [if_neg hsig]
        simp only
        rcases hga : getPendingApproval st.nodes with - | apn <;> simp only [hga]
        · -- no approval pending: fall through to the batch part
          split_ifs with hre
          · exact ⟨hu, hInv⟩
          · exact ih _
              (batch_state_pack env mc { st with sigK := st.sigK + 1 } hu hInv).1
              (batch_state_pack env mc { st with sigK := st.sigK + 1 } hu hInv).2
        · by_cases hh : env.hasApprovalHandler = true
          · rw [if_pos hh]
            by_cases hd : (env.approval st.approvalK).1 = true
            · rw [if_pos hd]
              simp only
              exact ih
                { st with
                  nodes := updateReadyState (setNode st.nodes apn.task.id
                    (fun m => { m with status := DagStatus.completed }))
                  approvalK := st.approvalK + 1
                  sigK := st.sigK + 1 }
                (approve_step_pack st.nodes apn hu hInv hga).1
                (approve_step_pack st.nodes apn hu hInv hga).2
            · rw [if_neg hd]
              simp only
              split_ifs with hre
              · exact ⟨(reject_step_pack st.nodes apn _ hu hInv hga).1,
                  (reject_step_pack st.nodes apn _ hu hInv hga).2⟩
              · exact ih _
                  (batch_state_pack env mc
                    { st with
                      nodes := setNode st.nodes apn.task.id
                        (fun m => { m with
                          status := DagStatus.ready
                          task := amendRejected m.task (env.approval st.approvalK).2 })
                      approvalK := st.approvalK + 1
                      sigK := st.sigK + 1 }
                    (reject_step_pack st.nodes apn _ hu hInv hga).1
                    (reject_step_pack st.nodes apn _ hu hInv hga).2).1
                  (batch_state_pack env mc
                    { st with
                      nodes := setNode st.nodes apn.task.id
                        (fun m => { m with
                          status := DagStatus.ready
                          task := amendRejected m.task (env.approval st.approvalK).2 })
                      approvalK := st.approvalK + 1
                      sigK := st.sigK + 1 }
                    (reject_step_pack st.nodes apn _ hu hInv hga).1
                    (reject_step_pack st.nodes apn _ hu hInv hga).2).2
          · rw [if_neg hh]
            simp only
            exact ih
              { st with
                nodes := updateReadyState (setNode st.nodes apn.task.id
                  (fun m => { m with status := DagStatus.completed }))
                sigK := st.sigK + 1 }
              (approve_step_pack st.nodes apn hu hInv hga).1
              (approve_step_pack st.nodes apn hu hInv hga).2

/-- **C1 (amended)** — In the DAG engine: (i) the readiness update sets every
`pending` node having a `failed` direct dependency to `blocked` (a dependency
that is merely `blocked` does *not* block the node — see the counterexample);
(ii) throughout the run, at every scheduler-loop boundary, no node whose
direct dependency set contains a `failed` or `blocked` node is `running`. -/
theorem dag_failed_dep_blocks_and_never_runs
    (env : DagEnv) (mc fuel : Nat) (nodes : List DagNode)
    (hu : UniqIds nodes) (hInv : Inv nodes) :
    (∀ n ∈ nodes, n.status = DagStatus.pending →
      ∀ d ∈ n.dependsOn, statusOf nodes d = some DagStatus.failed →
        statusOf (updateReadyState nodes) n.task.id = some DagStatus.blocked) ∧
    (∀ n ∈ (executeDag env mc fuel nodes).1.nodes, ∀ d ∈ n.dependsOn,
      (statusOf (executeDag env mc fuel nodes).1.nodes d = some DagStatus.failed ∨
       statusOf (executeDag env mc fuel nodes).1.nodes d = some DagStatus.blocked) →
      n.status ≠ DagStatus.running) := by
  constructor
  · intro n hn hp d hd hf
    exact updateReadyState_blocks nodes hu hn hp hd hf
  · intro n hn d hd hds hrun
    have hInv' : Inv (executeDag env mc fuel nodes).1.nodes :=
      (execLoop_preserves env mc fuel { nodes := nodes } hu hInv).2
    have hdc := hInv' n hn (by rw [hrun]; decide) (by rw [hrun]; decide) d hd
    rcases hds with hds | hds <;> rw [hdc] at hds <;> simp at hds

def tA : TeamTask := { id := "a", task := "ta" }

def tB : TeamTask := { id := "b", task := "tb" }

def tC : TeamTask := { id := "c", task := "tc" }

/-- A three-node chain: `a` failed, `b` blocked on `a`, `c` pending on `b`. -/
def c1xNodes : List DagNode :=
  [ { task := tA, dependsOn := [], status := DagStatus.failed },
    { task := tB, dependsOn := ["a"], status := DagStatus.blocked },
    { task := tC, dependsOn := ["b"], status := DagStatus.pending } ]

/-- **C1 counterexample** — a node whose direct dependency is `blocked` (not
`failed`) is *not* set to `blocked` by the readiness update: it stays
`pending`. -/
theorem updateReadyState_blocked_dep_stays_pending :
    ∃ n ∈ c1xNodes, n.status = DagStatus.pending ∧
      (∃ d ∈ n.dependsOn, statusOf c1xNodes d = some DagStatus.blocked) ∧
      statusOf (updateReadyState c1xNodes) n.task.id = some DagStatus.pending ∧
      statusOf (updateReadyState c1xNodes) n.task.id ≠ some DagStatus.blocked := by
  decide

/-- A failed root with a pending dependent. -/
def c1wNodes : List DagNode :=
  [ { task := tA, dependsOn := [], status := DagStatus.failed },
    { task := tB, dependsOn := ["a"], status := DagStatus.pending } ]

/-- An environment whose agents all fail and that never approves nor aborts. -/
def c1Env : DagEnv :=
  { agent := fun _ => rFail
    approval := fun _ => (true, none)
    hasApprovalHandler := false }

/-- Witness for `dag_failed_dep_blocks_and_never_runs` on a concrete
two-node DAG. -/
theorem dag_failed_dep_blocks_and_never_runs_witness :
    statusOf (updateReadyState c1wNodes) "b" = some DagStatus.blocked ∧
    ∀ n ∈ (executeDag c1Env 1 3 c1wNodes).1.nodes, ∀ d ∈ n.dependsOn,
      (statusOf (executeDag c1Env 1 3 c1wNodes).1.nodes d = some DagStatus.failed ∨
       statusOf (executeDag c1Env 1 3 c1wNodes).1.nodes d = some DagStatus.blocked) →
      n.status ≠ DagStatus.running := by
  have h := dag_failed_dep_blocks_and_never_runs c1Env 1 3 c1wNodes
    (by unfold UniqIds; decide) (by unfold Inv depsCompleted; decide)
  refine ⟨?_, h.2⟩
  exact h.1 { task := tB, dependsOn := ["a"], status := DagStatus.pending }
    (by decide) rfl "a" (by decide) (by decide)

/-! ## Mode dispatcher (`index.ts` `execute`) -/

/-- `v || d` on a JS number expected to be a non-negative integer
(`undefined` is `none`; `0` is falsy). -/
def jsOrNat (v : Option Nat) (d : Nat) : Nat :=
  match v with
  | some n => if n = 0 then d else n
  | none => d

/-- `s || d` on JS strings (the empty string is falsy). -/
def jsOrStr (s d : String) : String := if s = "" then d else s

/-- One entry of `params.tasks`. -/
structure TaskSpec where
  task : String
  name : Option String := none
deriving Repr, DecidableEq

/-- One entry of `params.chain`. -/
structure ChainStep where
  task : String
deriving Repr, DecidableEq

/-- `params.race`. -/
structure RaceSpec where
  task : String
  models : List String
deriving Repr, DecidableEq

/-- `params.team` (member/agent resolution settings are omitted; they do not
affect the control flow modeled here). -/
structure TeamSpec where
  objective : String := ""
  members : List TeamMember := []
  tasks : Option (List TeamTask) := none
  maxConcurrency : Option Nat := none
deriving Repr, DecidableEq

/-- `ParallelParams` restricted to the fields the dispatcher's mode choice
and concurrency clamps read (`none` models both `undefined` and `null`). -/
structure Params where
  task : Option String := none
  tasks : Option (List TaskSpec) := none
  chain : Option (List ChainStep) := none
  race : Option RaceSpec := none
  team : Option TeamSpec := none
  maxConcurrency : Option Nat := none
deriving Repr, DecidableEq

/-- `Array.isArray(params.chain) && params.chain.length > 0`. -/
def hasChain (p : Params) : Bool :=
  match p.chain with
  | some l => decide (0 < l.length)
  | none => false

/-- `params.race !== undefined && params.race !== null`. -/
def hasRace (p : Params) : Bool := p.race.isSome

/-- `Array.isArray(params.tasks) && params.tasks.length > 0`. -/
def hasTasks (p : Params) : Bool :=
  match p.tasks with
  | some l => decide (0 < l.length)
  | none => false

/-- `typeof params.task === "string" && params.task.trim().length > 0`. -/
def hasSingle (p : Params) : Bool :=
  match p.task with
  | some s => decide (0 < (jsTrim s).length)
  | none => false

/-- `params.team !== undefined && params.team !== null`. -/
def hasTeam (p : Params) : Bool := p.team.isSome

/-- `Number(hasChain) + Number(hasRace) + Number(hasTasks) + Number(hasSingle)
+ Number(hasTeam)`. -/
def modeCount (p : Params) : Nat :=
  (cond (hasChain p) 1 0) + (cond (hasRace p) 1 0) + (cond (hasTasks p) 1 0) +
    (cond (hasSingle p) 1 0) + (cond (hasTeam p) 1 0)

/-- `digit* '\x7d'` after at least one digit was consumed. -/
def restDigitsBrace : List Char → Bool
  | [] => false
  | c :: rest =>
    if c = '}' then true else if c.isDigit then restDigitsBrace rest else false

/-- `digit+ '\x7d'`. -/
def digitsBrace : List Char → Bool
  | [] => false
  | c :: rest => c.isDigit && restDigitsBrace rest

/-- A match of `crossRefPattern = /\{(task|result)_(\d+)\}/` anchored at the
head of the list. -/
def crossRefAt (l : List Char) : Bool :=
  (List.isPrefixOf "\x7btask_".data l && digitsBrace (l.drop 6)) ||
  (List.isPrefixOf "\x7bresult_".data l && digitsBrace (l.drop 8))

/-- `crossRefPattern.test(s)`: the pattern matches at some position. -/
def crossRefTest : List Char → Bool
  | [] => false
  | c :: rest => crossRefAt (c :: rest) || crossRefTest rest

/-- `tasks.some(t => crossRefPattern.test(t.task))`. -/
def hasCrossRefs (tasks : List TaskSpec) : Bool :=
  tasks.any (fun t => crossRefTest t.task.data)

/-- The concurrency limit parallel mode hands to the worker pool:
`Math.min(params.maxConcurrency || DEFAULT_CONCURRENCY, MAX_CONCURRENCY,
tasks.length)`, overridden to `1` when any task has a cross-reference
(`hasCrossRefs ? 1 : maxConcurrency` at the `mapWithConcurrencyLimit` call). -/
def parallelPoolConcurrency (tasks : List TaskSpec) (mc : Option Nat) : Nat :=
  let maxConcurrency :=
    min (min (jsOrNat mc DEFAULT_CONCURRENCY) MAX_CONCURRENCY) tasks.length
  if hasCrossRefs tasks then 1 else maxConcurrency

/-- Team mode's cap: `Math.min(teamMaxConcurrency || DEFAULT_CONCURRENCY,
MAX_CONCURRENCY)` — note: no item-count term. -/
def teamMaxConc (tmc : Option Nat) : Nat :=
  min (jsOrNat tmc DEFAULT_CONCURRENCY) MAX_CONCURRENCY

/-- The cap the specification prescribes for every mode:
`min(requested, MAX_CONCURRENCY, itemCount)` with default 4.  (Spec-side
definition, written from the spec's words for comparison.) -/
def specEffectiveConcurrency (requested : Option Nat) (itemCount : Nat) : Nat :=
  min (min (jsOrNat requested DEFAULT_CONCURRENCY) MAX_CONCURRENCY) itemCount

/-- `result.error || result.output || "(no output)"`. -/
def errMsg (r : TaskResult) : String :=
  match r.error with
  | some e => jsOrStr e (jsOrStr r.output "(no output)")
  | none => jsOrStr r.output "(no output)"

/-- A dispatcher response (`content[0].text` plus the `details` fields the
claims inspect) together with the number of `runAgent` invocations the
request made. -/
structure ExecOut where
  text : String
  results : List TaskResult
  totalDurationMs : Nat
  isError : Bool := false
  agentCalls : Nat
deriving Repr, DecidableEq

/-- The dispatcher's environment: the `runAgent` oracle (in call order), the
agent discovery outcome, and the elapsed time `makeDetails` observes. -/
structure DispatchEnv where
  agent : Nat → TaskResult
  agentScope : String := "user"
  agentList : String := ""
  elapsed : Nat := 0

/-- The `modeCount !== 1` early-return text. -/
def invalidModesText (env : DispatchEnv) : String :=
  "Invalid parameters. Provide exactly one mode: task (single), tasks (parallel), chain, race, or team.\n\nAvailable agents [" ++
    env.agentScope ++ "]: " ++ env.agentList

/-- A chain-mode outcome: the collected results, the prompt handed to each
executed step (instrumentation), the response text and the error flag. -/
structure ChainRes where
  results : List TaskResult
  prompts : List String
  text : String
  isError : Bool
deriving Repr, DecidableEq

/-- The chain-mode step loop: each step's prompt is its task with every
`\x7bprevious\x7d` replaced by the previous step's output; a failed or
aborted step stops the chain with a `Chain stopped at step i` message
(1-based); otherwise the response text is
`lastResult?.output || "(no output)"`. -/
def chainLoop (env : Nat → TaskResult) :
    List ChainStep → Nat → String → List TaskResult → ChainRes
  | [], _, _, acc =>
    { results := acc
      prompts := []
      text := jsOrStr ((acc.getLast?.map TaskResult.output).getD "") "(no output)"
      isError := false }
  | step :: rest, i, prev, acc =>
    let prompt := jsReplaceAll step.task "{previous}" prev
    let result := env i
    if result.exitCode ≠ 0 ∨ result.aborted = true then
      { results := acc ++ [result]
        prompts := [prompt]
        text := "Chain stopped at step " ++ toString (i + 1) ++ ": " ++
          errMsg result
        isError := true }
    else
      let res := chainLoop env rest (i + 1) result.output (acc ++ [result])
      { res with prompts := prompt :: res.prompts }

/-- Chain mode from the top (`previousOutput = ""`). -/
def chainExec (env : Nat → TaskResult) (steps : List ChainStep) : ChainRes :=
  chainLoop env steps 0 "" []

/-- Single mode (`hasSingle` branch): one `runAgent` call; the response text
is `result.output || "(no output)"`.  (Agent-name resolution is omitted: no
`agent` parameter is modeled.) -/
def singleExec (env : DispatchEnv) : ExecOut :=
  let result := env.agent 0
  { text := jsOrStr result.output "(no output)"
    results := [result]
    totalDurationMs := env.elapsed
    isError := false
    agentCalls := 1 }

/-- Chain mode (`hasChain` branch) as a dispatcher response. -/
def chainDispatch (env : DispatchEnv) (steps : List ChainStep) : ExecOut :=
  let r := chainExec env.agent steps
  { text := r.text
    results := r.results
    totalDurationMs := env.elapsed
    isError := r.isError
    agentCalls := r.results.length }

/-- Modelled from the spec: `raceWithAbort` (`parallel.ts` is not among the
provided sources).  One runner per model; the first success wins and its
output (or `"(no output)"`) is returned; when no runner succeeds the
response is `"Race aborted"` with the error flag set. -/
def raceExec (env : DispatchEnv) (r : RaceSpec) : ExecOut :=
  let results := (List.range r.models.length).map env.agent
  match results.find? (fun t => t.exitCode == 0) with
  | some w =>
    { text := jsOrStr w.output "(no output)"
      results := results
      totalDurationMs := env.elapsed
      isError := false
      agentCalls := r.models.length }
  | none =>
    { text := "Race aborted"
      results := results
      totalDurationMs := env.elapsed
      isError := true
      agentCalls := r.models.length }

/-- Parallel mode (`hasTasks` branch).  One `runAgent` call per task; result
order follows input order (the contract of `mapWithConcurrencyLimit`, whose
source — `parallel.ts` — is not provided; modelled from the spec).  Only the
headline of the summary text is modeled; the per-task summaries, shared
context and cross-reference substitution do not affect any claim below.  The
pool is invoked with `parallelPoolConcurrency tasks mc`. -/
def parallelExec (env : DispatchEnv) (tasks : List TaskSpec) : ExecOut :=
  let results := (List.range tasks.length).map env.agent
  let successCount := (results.filter (fun r => r.exitCode == 0)).length
  { text := "## Parallel: " ++ toString successCount ++ "/" ++
      toString results.length ++ " succeeded"
    results := results
    totalDurationMs := env.elapsed
    isError := false
    agentCalls := tasks.length }

/-- Team mode (`hasTeam` branch): build DAG nodes from the team tasks and run
the scheduler with cap `teamMaxConc` (the `buildDag` validation and the
summary text are not modeled here; the claims below inspect only the clamp
and the invalid-mode gate).  Fuel `nodes.length + 1` covers a linear chain. -/
def teamExec (env : DispatchEnv) (t : TeamSpec) : ExecOut :=
  let nodes := (t.tasks.getD []).map (fun tt =>
    { task := tt, dependsOn := tt.depends, status := DagStatus.pending : DagNode })
  let dagOut := executeDag
    { agent := env.agent, approval := fun _ => (true, none),
      hasApprovalHandler := false }
    (teamMaxConc t.maxConcurrency) (nodes.length + 1) (updateReadyState nodes)
  { text := "## Team"
    results := dagOut.1.results
    totalDurationMs := env.elapsed
    isError := false
    agentCalls := dagOut.1.agentK }

/-- The dispatcher: the `modeCount !== 1` gate (returning the invalid-modes
response with no results, `totalDurationMs: 0` and no agent invocation),
then the mode branches in source order. -/
def execute (env : DispatchEnv) (p : Params) : ExecOut :=
  if modeCount p ≠ 1 then
    { text := invalidModesText env
      results := []
      totalDurationMs := 0
      isError := false
      agentCalls := 0 }
  else if hasSingle p then singleExec env
  else if hasChain p then chainDispatch env (p.chain.getD [])
  else if hasRace p then raceExec env (p.race.getD { task := "", models := [] })
  else if hasTasks p then parallelExec env (p.tasks.getD [])
  else teamExec env (p.team.getD
    { objective := "", members := [], tasks := none, maxConcurrency := none })

theorem isPrefixOf_append {p l r : List Char} (h : List.isPrefixOf p l = true) :
    List.isPrefixOf p (l ++ r) = true := by
  rw [List.isPrefixOf_iff_prefix] at h ⊢
  exact h.trans (List.prefix_append l r)

/-- **C3** — Whenever the number of supplied modes among
task/tasks/chain/race/team differs from 1, the dispatcher returns the
invalid-parameters response — text beginning `Invalid parameters`, empty
results, `totalDurationMs = 0` — and invokes no agent. -/
theorem execute_invalid_modes (env : DispatchEnv) (p : Params)
    (h : modeCount p ≠ 1) :
    (execute env p).text = invalidModesText env ∧
    List.isPrefixOf "Invalid parameters".data (execute env p).text.data = true ∧
    (execute env p).results = [] ∧
    (execute env p).totalDurationMs = 0 ∧
    (execute env p).agentCalls = 0 := by
  have he : execute env p =
      { text := invalidModesText env
        results := []
        totalDurationMs := 0
        isError := false
        agentCalls := 0 } := by
    unfold execute
    rw [if_pos h]
  rw [he]
  refine ⟨rfl, ?_, rfl, rfl, rfl⟩
  show List.isPrefixOf "Invalid parameters".data (invalidModesText env).data = true
  unfold invalidModesText
  rw [String.data_append, String.data_append, String.data_append]
  exact isPrefixOf_append (isPrefixOf_append (isPrefixOf_append (by decide)))

/-- Parameters supplying no mode at all. -/
def emptyParams : Params := {}

/-- A dispatcher environment whose agents all fail. -/
def dEnv0 : DispatchEnv := { agent := fun _ => rFail }

/-- Witness for `execute_invalid_modes` at a concrete parameter object. -/
theorem execute_invalid_modes_witness :
    modeCount emptyParams ≠ 1 ∧
    List.isPrefixOf "Invalid parameters".data
      (execute dEnv0 emptyParams).text.data = true ∧
    (execute dEnv0 emptyParams).results = [] ∧
    (execute dEnv0 emptyParams).totalDurationMs = 0 ∧
    (execute dEnv0 emptyParams).agentCalls = 0 := by
  have h := execute_invalid_modes dEnv0 emptyParams (by decide)
  exact ⟨by decide, h.2.1, h.2.2.1, h.2.2.2.1, h.2.2.2.2⟩

/-- **C7 (amended)** — Parallel mode passes
`min(maxConcurrency || 4, MAX_CONCURRENCY, tasks.length)` to the pool — the
spec's `min(requested, 8, itemCount)` — *unless* some task contains a
`\x7b(task|result)_n\x7d` cross-reference, in which case the pool runs
sequentially (limit 1).  Team mode's cap is `min(teamMaxConcurrency || 4,
MAX_CONCURRENCY)` with no item-count term; each scheduler batch is
additionally bounded by the number of currently-ready tasks. -/
theorem concurrency_clamps (tasks : List TaskSpec) (mc tmc : Option Nat)
    (nodes : List DagNode) (k : Nat) :
    (hasCrossRefs tasks = false →
      parallelPoolConcurrency tasks mc = specEffectiveConcurrency mc tasks.length) ∧
    (hasCrossRefs tasks = true → parallelPoolConcurrency tasks mc = 1) ∧
    teamMaxConc tmc ≤ MAX_CONCURRENCY ∧
    teamMaxConc none = DEFAULT_CONCURRENCY ∧
    ((getReadyTasks nodes).take k).length = min k (getReadyTasks nodes).length := by
  refine ⟨?_, ?_, ?_, rfl, List.length_take k _⟩
  · intro hx
    unfold parallelPoolConcurrency specEffectiveConcurrency
    rw [if_neg (by rw [hx]; intro hc; cases hc)]
  · intro hx
    unfold parallelPoolConcurrency
    rw [if_pos hx]
  · exact min_le_right _ _

/-- A parallel request whose first task cross-references another task. -/
def c7xTasks : List TaskSpec :=
  [{ task := "use {task_0}" }, { task := "b" }, { task := "c" }, { task := "d" }]

/-- **C7 counterexample** — a parallel invocation with cross-references and
`maxConcurrency = 4` over 4 tasks runs the pool with limit 1, not the
claimed `min(4, 8, 4) = 4`; and team mode with `teamMaxConcurrency = 8` over
1 task computes cap 8, not the claimed `min(8, 8, 1) = 1`. -/
theorem concurrency_clamp_counterexample :
    hasCrossRefs c7xTasks = true ∧
    parallelPoolConcurrency c7xTasks (some 4) = 1 ∧
    specEffectiveConcurrency (some 4) c7xTasks.length = 4 ∧
    (1 : Nat) ≠ 4 ∧
    teamMaxConc (some 8) = 8 ∧
    specEffectiveConcurrency (some 8) 1 = 1 ∧
    (8 : Nat) ≠ 1 := by
  decide

/-- A cross-reference-free parallel request. -/
def c7wTasks : List TaskSpec := [{ task := "a" }, { task := "b" }, { task := "c" }]

/-- Witness for `concurrency_clamps`: concrete clamp values. -/
theorem concurrency_clamps_witness :
    parallelPoolConcurrency c7wTasks (some 5) = specEffectiveConcurrency (some 5) 3 ∧
    parallelPoolConcurrency c7wTasks (some 5) = 3 ∧
    teamMaxConc (some 9) ≤ MAX_CONCURRENCY ∧
    teamMaxConc none = DEFAULT_CONCURRENCY := by
  have h := concurrency_clamps c7wTasks (some 5) (some 9) [] 0
  exact ⟨h.1 (by decide), by decide, h.2.2.1, h.2.2.2.1⟩

/-- Full characterization of the chain loop: some prefix of `m` steps runs
(one agent call each, in order); each executed step's prompt substitutes the
previous step's output; all but possibly the last executed step succeeded;
on error the text carries the 1-based stop index, otherwise every step ran
and the text is the last output (or `"(no output)"`). -/
theorem chainLoop_char (env : Nat → TaskResult) :
    ∀ (steps : List ChainStep) (i : Nat) (prev : String) (acc : List TaskResult),
    ∃ m, m ≤ steps.length ∧
      (chainLoop env steps i prev acc).results = acc ++ (List.range' i m).map env ∧
      (chainLoop env steps i prev acc).prompts.length = m ∧
      (∀ j, j < m → ∃ s, steps.get? j = some s ∧
        (chainLoop env steps i prev acc).prompts.get? j =
          some (jsReplaceAll s.task "{previous}"
            (if j = 0 then prev else (env (i + j - 1)).output))) ∧
      (∀ j, j + 1 < m → (env (i + j)).exitCode = 0 ∧ (env (i + j)).aborted = false) ∧
      ((chainLoop env steps i prev acc).isError = true →
        0 < m ∧ ((env (i + m - 1)).exitCode ≠ 0 ∨ (env (i + m - 1)).aborted = true) ∧
        (chainLoop env steps i prev acc).text =
          "Chain stopped at step " ++ toString (i + m) ++ ": " ++
            errMsg (env (i + m - 1))) ∧
      ((chainLoop env steps i prev acc).isError = false →
        m = steps.length ∧
        (∀ j, j < m → (env (i + j)).exitCode = 0 ∧ (env (i + j)).aborted = false) ∧
        (chainLoop env steps i prev acc).text =
          jsOrStr ((((chainLoop env steps i prev acc).results).getLast?.map
            TaskResult.output).getD "") "(no output)") := by
  intro steps
  induction steps with
  | nil =>
    intro i prev acc
    refine ⟨0, Nat.le_refl 0, ?_, rfl, ?_, ?_, ?_, ?_⟩
    · simp [chainLoop]
    · intro j hj; omega
    · intro j hj; omega
    · intro hE; cases hE
    · intro _
      refine ⟨rfl, fun j hj => absurd hj (by omega), ?_⟩
      simp [chainLoop]
  | cons step rest ih =>
    intro i prev acc
    simp only [chainLoop]
    by_cases hf : (env i).exitCode ≠ 0 ∨ (env i).aborted = true
    · rw [if_pos hf]
      refine ⟨1, by simp, ?_, rfl, ?_, ?_, ?_, ?_⟩
      · rfl
      · intro j hj
        have hj0 : j = 0 := by omega
        subst hj0
        exact ⟨step, rfl, rfl⟩
      · intro j hj; omega
      · intro _
        refine ⟨by omega, ?_, ?_⟩
        · simpa using hf
        · simp
      · intro hE; cases hE
    · rw [if_neg hf]
      have hok0 : (env i).exitCode = 0 ∧ (env i).aborted = false := by
        rcases not_or.mp hf with ⟨h1, h2⟩
        exact ⟨not_not.mp h1, by simpa using h2⟩
      obtain ⟨m', hle, hres, hplen, hprompts, hok, herr, hsucc⟩ :=
        ih (i + 1) (env i).output (acc ++ [env i])
      refine ⟨m' + 1, by simpa using hle, ?_, ?_, ?_, ?_, ?_, ?_⟩
      · rw [hres, show List.range' i (m' + 1) = i :: List.range' (i + 1) m' from rfl,
          List.map_cons]
        simp
      · simpa using hplen
      · intro j hj
        cases j with
        | zero => exact ⟨step, rfl, rfl⟩
        | succ j' =>
          obtain ⟨s, hs, hp⟩ := hprompts j' (by omega)
          refine ⟨s, hs, ?_⟩
          show (chainLoop env rest (i + 1) (env i).output (acc ++ [env i])).prompts.get? j' = _
          rw [hp]
          cases j' with
          | zero => simp
          | succ k =>
            rw [if_neg (by omega), if_neg (by omega)]
            have harg : i + 1 + (k + 1) - 1 = i + (k + 1 + 1) - 1 := by omega
            rw [harg]
      · intro j hj
        cases j with
        | zero => simpa using hok0
        | succ j' =>
          have := hok j' (by omega)
          have harg : i + 1 + j' = i + (j' + 1) := by omega
          rw [harg] at this
          exact this
      · intro hE
        obtain ⟨hm0, hfail, htext⟩ := herr hE
        refine ⟨by omega, ?_, ?_⟩
        · have harg : i + (m' + 1) - 1 = i + 1 + m' - 1 := by omega
          rw [harg]
          exact hfail
        · have harg1 : i + (m' + 1) = i + 1 + m' := by omega
          rw [harg1]
          exact htext
      · intro hE
        obtain ⟨hm, hall, htext⟩ := hsucc hE
        refine ⟨by rw [List.length_cons]; omega, ?_, ?_⟩
        · intro j hj
          cases j with
          | zero => simpa using hok0
          | succ j' =>
            have := hall j' (by omega)
            have harg : i + 1 + j' = i + (j' + 1) := by omega
            rw [harg] at this
            exact this
        · exact htext

/-- **C8 (amended)** — Chain mode runs a prefix of `m` steps (one agent call
each, in input order).  Step `j`'s prompt is its task text with every
`\x7bprevious\x7d` replaced by step `j-1`'s output (the empty string for the
first step).  A step with non-zero exit code or aborted halts the chain:
every earlier step succeeded, the response carries the partial results and
the text `Chain stopped at step m` (1-based) with the failure message.
Otherwise all steps ran and succeeded and the response text is
`lastOutput || "(no output)"` — the last step's output only when that output
is non-empty (see the counterexample). -/
theorem chain_mode_spec (env : Nat → TaskResult) (steps : List ChainStep) :
    ∃ m, m ≤ steps.length ∧
      (chainExec env steps).results = (List.range' 0 m).map env ∧
      (chainExec env steps).prompts.length = m ∧
      (∀ j, j < m → ∃ s, steps.get? j = some s ∧
        (chainExec env steps).prompts.get? j =
          some (jsReplaceAll s.task "{previous}"
            (if j = 0 then "" else (env (j - 1)).output))) ∧
      (∀ j, j + 1 < m → (env j).exitCode = 0 ∧ (env j).aborted = false) ∧
      ((chainExec env steps).isError = true →
        0 < m ∧ ((env (m - 1)).exitCode ≠ 0 ∨ (env (m - 1)).aborted = true) ∧
        (chainExec env steps).text =
          "Chain stopped at step " ++ toString m ++ ": " ++ errMsg (env (m - 1))) ∧
      ((chainExec env steps).isError = false →
        m = steps.length ∧
        (∀ j, j < m → (env j).exitCode = 0 ∧ (env j).aborted = false) ∧
        (chainExec env steps).text =
          jsOrStr (((chainExec env steps).results.getLast?.map
            TaskResult.output).getD "") "(no output)") := by
  obtain ⟨m, h1, h2, h3, h4, h5, h6, h7⟩ := chainLoop_char env steps 0 "" []
  refine ⟨m, h1, by simpa using h2, h3, ?_, ?_, ?_, ?_⟩
  · intro j hj
    obtain ⟨s, hs, hp⟩ := h4 j hj
    exact ⟨s, hs, by simpa using hp⟩
  · intro j hj
    simpa using h5 j hj
  · intro hE
    obtain ⟨ha, hb, hc⟩ := h6 hE
    exact ⟨ha, by simpa using hb, by simpa using hc⟩
  · intro hE
    obtain ⟨ha, hb, hc⟩ := h7 hE
    refine ⟨ha, ?_, hc⟩
    intro j hj
    simpa using hb j hj

/-- A one-step chain. -/
def c8Steps : List ChainStep := [{ task := "t" }]

/-- An environment whose agent succeeds with empty output. -/
def c8Env : Nat → TaskResult := fun _ => rOk ""

/-- **C8 counterexample** — a chain whose last (and only) step succeeds with
empty output: the response text is `"(no output)"`, not the last step's
output `""`. -/
theorem chain_empty_output_text_not_last :
    (chainExec c8Env c8Steps).isError = false ∧
    (chainExec c8Env c8Steps).results.getLast?.map TaskResult.output = some "" ∧
    (chainExec c8Env c8Steps).text = "(no output)" ∧
    "(no output)" ≠ "" := by
  refine ⟨rfl, rfl, rfl, by decide⟩
